import Mathlib

/-!
A verification development of cui2vec.

Shallow embedding of `cui2vec.go` and `softmax.go`.

* Strings and the bytes of the input are `String`/`List Char`, one character per
  byte: the input is taken to be ASCII, which every character the code inspects is.
* Go's `int` is the 64-bit machine integer; `strconv.Atoi` is modelled with its
  range check against `2^63`.
* The `float64` operations the code performs (`math.Exp`, `+`, `/`, `>`) are the
  fields of an `Arith K`, so no definition assumes exact arithmetic. `Arith.exact`
  is arithmetic in an ordered field; `Arith.float64` is IEEE 754 binary64 with its
  NaN, infinities and signed zeros, the rounding of an inexact result and the
  library's exponential inside its range being parameters.
* A Go map is a list of key/value pairs with pairwise distinct keys; the order of
  the list stands for the order in which `range` enumerates the map and in which
  the goroutines append their results, which the language leaves unspecified.
-/

namespace Cui2vec

/-! ## Identifier codec (`CUI2Int`, `Int2CUI`) -/

/-- Value of a run of ASCII decimal digits, most significant first. -/
def digitsValue (ds : List Char) : Nat :=
  ds.foldl (fun acc c => 10 * acc + (c.toNat - 48)) 0

/-- The text of a `*strconv.NumError` of `Atoi`: the function, the quoted input and
the cause. -/
def numError (s : List Char) (cause : String) : String :=
  "strconv.Atoi: parsing \"" ++ String.mk s ++ "\": " ++ cause

/-- The library function `strconv.Atoi` on a 64-bit platform: an optional sign,
then one or more decimal digits; a syntax error on anything else and a range
error when the value does not fit `int`. -/
def Atoi (s : List Char) : Except String Int :=
  let neg : Bool := s.head? = some '-'
  let ds : List Char :=
    match s with
    | '-' :: t => t
    | '+' :: t => t
    | _ => s
  if ds = [] ∨ ¬ ds.all Char.isDigit = true then
    .error (numError s "invalid syntax")
  else if neg then
    if digitsValue ds ≤ 2 ^ 63 then .ok (-(digitsValue ds : Int))
    else .error (numError s "value out of range")
  else
    if digitsValue ds < 2 ^ 63 then .ok (digitsValue ds : Int)
    else .error (numError s "value out of range")

/-- The library function `strconv.Itoa`: decimal rendering, with a leading `-`
for a negative value. -/
def Itoa (val : Int) : List Char :=
  if val < 0 then '-' :: Nat.toDigits 10 val.natAbs else Nat.toDigits 10 val.natAbs

/-- Capture group `CUI` of a match of `C[0]+(?P<CUI>[0-9]+)` that starts at a
`C` followed by `rest`, if there is one. `run` is the maximal run of digits after
the `C`. Both repetitions are greedy, so `[0]+` takes every leading zero and the
group the remaining digits; when the run is all zeros, `[0]+` gives back its last
zero to the group. There is a match exactly when the run starts with `0` and has
at least two digits, and the match ends where the run ends. -/
def matchAfterC (rest : List Char) : Option (List Char) :=
  let run := rest.takeWhile Char.isDigit
  if run.head? = some '0' ∧ 2 ≤ run.length then
    let g := run.dropWhile (fun c => c == '0')
    some (if g = [] then ['0'] else g)
  else none

/-- The capture groups `m[i][1]` of `re.FindAllStringSubmatch(cui, -1)` for the
pattern `C[0]+(?P<CUI>[0-9]+)`: successive non-overlapping leftmost matches.
`skip` counts the characters still covered by the previous match; the search
resumes where that match ended. -/
def findAllFrom : Nat → List Char → List (List Char)
  | _, [] => []
  | skip + 1, _ :: rest => findAllFrom skip rest
  | 0, c :: rest =>
    if c = 'C' then
      match matchAfterC rest with
      | some g => g :: findAllFrom (rest.takeWhile Char.isDigit).length rest
      | none => findAllFrom 0 rest
    else findAllFrom 0 rest

/-- The groups of all matches in the whole string. -/
def FindAllStringSubmatch (cui : String) : List (List Char) :=
  findAllFrom 0 cui.data

/-- Source comment: `CUI2Int converts a string CUI into an integer.` The error of
a string with no match or with several is `<cui> is not a cui`. -/
def CUI2Int (cui : String) : Except String Int :=
  match FindAllStringSubmatch cui with
  | [g] => Atoi g
  | _ => .error (cui ++ " is not a cui")

/-- The loop `for len(cui) < 7 { cui = "0" + cui }`, run for `k` iterations. -/
def padZeros : Nat → List Char → List Char
  | 0, cui => cui
  | k + 1, cui => padZeros k ('0' :: cui)

/-- Source comment: `Int2CUI converts an integer value to a CUI.` The loop body
runs once for every character the rendering is short of seven. -/
def Int2CUI (val : Int) : String :=
  let cui := Itoa val
  String.mk ('C' :: padZeros (7 - cui.length) cui)

/-! ## Floating-point arithmetic -/

/-- The `float64` operations of the code: `math.Exp`, the zero a sum starts from,
`+`, `/` and the comparison `>`. -/
structure Arith (K : Type) where
  exp : K → K
  zero : K
  add : K → K → K
  div : K → K → K
  gt : K → K → Bool

/-- Arithmetic on linearly ordered values, `>` being the order's. -/
def Arith.ordered {K : Type} [LinearOrder K] (exp : K → K) (zero : K)
    (add div : K → K → K) : Arith K :=
  { exp := exp, zero := zero, add := add, div := div, gt := fun a b => decide (a > b) }

/-- Exact arithmetic in an ordered field, with any `exp`. -/
def Arith.exact {K : Type} [LinearOrderedField K] (exp : K → K) : Arith K :=
  Arith.ordered exp 0 (fun a b => a + b) (fun a b => a / b)

/-- The values of IEEE 754 binary64: NaN, the two infinities, the two zeros and
the finite non-zero values, each given by the rational it is. -/
inductive F64 where
  | nan : F64
  | inf (neg : Bool) : F64
  | zero (neg : Bool) : F64
  | fin (q : ℚ) : F64

/-- The `float64` sum. `round` stands for rounding a non-zero rational to the
nearest binary64 value, ties to even, an infinity on overflow and a zero on
underflow. -/
def F64.add (round : ℚ → F64) : F64 → F64 → F64
  | .nan, _ => .nan
  | _, .nan => .nan
  | .inf a, .inf b => if a = b then .inf a else .nan
  | .inf a, _ => .inf a
  | _, .inf b => .inf b
  | .zero a, .zero b => .zero (a && b)
  | .zero _, .fin q => .fin q
  | .fin p, .zero _ => .fin p
  | .fin p, .fin q => if p + q = 0 then .zero false else round (p + q)

/-- The `float64` quotient; the sign of a zero or infinite result is the
exclusive or of the operands' signs. -/
def F64.div (round : ℚ → F64) : F64 → F64 → F64
  | .nan, _ => .nan
  | _, .nan => .nan
  | .inf _, .inf _ => .nan
  | .inf a, .zero b => .inf (xor a b)
  | .inf a, .fin q => .inf (xor a (decide (q < 0)))
  | .zero a, .inf b => .zero (xor a b)
  | .fin p, .inf b => .zero (xor (decide (p < 0)) b)
  | .zero _, .zero _ => .nan
  | .zero a, .fin q => .zero (xor a (decide (q < 0)))
  | .fin p, .zero b => .inf (xor (decide (p < 0)) b)
  | .fin p, .fin q => round (p / q)

/-- The `float64` comparison `>`: false whenever an operand is NaN, and the two
zeros are equal. -/
def F64.gt : F64 → F64 → Bool
  | .nan, _ => false
  | _, .nan => false
  | .inf a, .inf b => !a && b
  | .inf a, _ => !a
  | _, .inf b => b
  | .zero _, .zero _ => false
  | .zero _, .fin q => decide (q < 0)
  | .fin p, .zero _ => decide (0 < p)
  | .fin p, .fin q => decide (q < p)

/-- The library function `math.Exp`: NaN and `+Inf` are returned as they are,
`-Inf` gives 0 and a zero gives 1; a value below -746 underflows to 0 and a value
above 710 overflows to `+Inf`. Between the two, `core` stands for the library's
result. -/
def F64.exp (core : ℚ → F64) : F64 → F64
  | .nan => .nan
  | .inf false => .inf false
  | .inf true => .zero false
  | .zero _ => .fin 1
  | .fin q => if q < -746 then .zero false else if 710 < q then .inf false else core q

/-- The arithmetic of `float64`. -/
def Arith.float64 (round core : ℚ → F64) : Arith F64 :=
  { exp := F64.exp core, zero := F64.zero false, add := F64.add round,
    div := F64.div round, gt := F64.gt }

/-! ## Normalizer (`softmax.go`) -/

/-- Source comment: `Concept is a CUI that has a similarity score in relation to a
target CUI.` -/
structure Concept (K : Type) where
  CUI : String
  Value : K

/-- The library function `floats.Sum`, as its plain loop: `sum += val` over the
slice in order, from 0. -/
def Sum {K : Type} (A : Arith K) (s : List K) : K :=
  s.foldl A.add A.zero

/-- Source comment: `Softmax normalises a slice of concepts.` -/
def Softmax {K : Type} (A : Arith K) (z : List (Concept K)) : List (Concept K) :=
  let zExp := z.map (fun c => A.exp c.Value)
  let sumZExp := Sum A zExp
  List.zipWith (fun c e => { CUI := c.CUI, Value := A.div e sumZExp }) z zExp

/-- Modelled from the spec: the lower-case `softmax` that `Similar` calls is not
under src/; it is the spec's Normalizer, the transform `Softmax` of softmax.go
computes. -/
def softmax {K : Type} (A : Arith K) (z : List (Concept K)) : List (Concept K) :=
  Softmax A z

/-! ## Vector math -/

/-- Dot product of two vectors of the same length. -/
def dot {K : Type} [Field K] (a b : List K) : K :=
  (List.zipWith (fun x y => x * y) a b).sum

/-- Magnitude of a vector; `sqrt` stands for `math.Sqrt`. -/
def magnitude {K : Type} [Field K] (sqrt : K → K) (a : List K) : K :=
  sqrt (dot a a)

/-- Modelled from the spec: `cosine` is not under src/. The spec gives it as the
dot product divided by the product of the two magnitudes, with an error (the pair
is skipped) when the vectors differ in dimensionality or either magnitude is
zero. -/
def cosine {K : Type} [Field K] [DecidableEq K] (sqrt : K → K) (a b : List K) :
    Except String K :=
  if a.length ≠ b.length then .error "vectors differ in dimensionality"
  else if magnitude sqrt a = 0 ∨ magnitude sqrt b = 0 then .error "zero magnitude"
  else .ok (dot a b / (magnitude sqrt a * magnitude sqrt b))

/-! ## The store -/

/-- Source comment: `Embeddings is a complete cui2vec file loaded into memory.` The
Go map is the list of its entries, keys pairwise distinct, in an arbitrary
enumeration order. -/
abbrev Embeddings (K : Type) := List (String × List K)

/-- The map read `v[cui]`: the nil slice when the key is absent. -/
def Embeddings.get {K : Type} (v : Embeddings K) (cui : String) : List K :=
  (List.lookup cui v).getD []

/-- The map write `vector[cui] = vec`: an existing entry is overwritten. -/
def Embeddings.set {K : Type} (v : Embeddings K) (cui : String) (vec : List K) :
    Embeddings K :=
  (cui, vec) :: v.filter (fun e => e.1 != cui)

/-- The identifiers of the store. -/
def Embeddings.keys {K : Type} (v : Embeddings K) : List String :=
  v.map Prod.fst

/-! ## The line scanner (`bufio.Scanner`) -/

/-- The constant `bufio.MaxScanTokenSize`, `64 * 1024`: the size the scanner's
buffer grows to at most. -/
def MaxScanTokenSize : Nat := 65536

/-- A `bufio.Scanner` over a reader that delivers its bytes and then `io.EOF`.
`buf` is what the split function has still to see: all the unread input while no
error is set, the bytes left in the buffer once one is. `err` tells that
`io.EOF` or `ErrTooLong` is set, `token` is the last token. -/
structure Scanner where
  buf : List Char
  err : Bool
  token : List Char

/-- The call `bufio.NewScanner(r)`. -/
def NewScanner (r : List Char) : Scanner :=
  { buf := r, err := false, token := [] }

/-- The helper `dropCR` of `bufio.ScanLines`: a trailing `\r` is dropped. -/
def dropCR (data : List Char) : List Char :=
  if data.getLast? = some '\r' then data.dropLast else data

/-- One call `scanner.Scan()` with the split function `ScanLines`: whether there
is a token, and the scanner after the call. A line is the bytes before the next
newline, or all that is left. While no error is set, a line of `MaxScanTokenSize`
bytes or more fills the buffer without a newline in it: the call sets
`ErrTooLong` and returns false, the buffer keeping the line's first
`MaxScanTokenSize` bytes; at the end of the input it sets `io.EOF` and returns
false. Once an error is set the split function is given what the buffer holds as
the end of the input, and the call returns false when that is nothing. -/
def Scan (s : Scanner) : Bool × Scanner :=
  if s.buf = [] then (false, { s with err := true })
  else
    let line := s.buf.takeWhile (fun c => c != '\n')
    if s.err = false ∧ MaxScanTokenSize ≤ line.length then
      (false, { buf := s.buf.take MaxScanTokenSize, err := true, token := s.token })
    else
      (true, { buf := s.buf.drop (line.length + 1), err := s.err, token := dropCR line })

/-- The reader goroutine: `for scanner.Scan() { queue <- scanner.Text() }`, the
lines it sends. Every call that returns true takes at least one byte from `buf`,
so `fuel` calls suffice when `fuel` exceeds the length of `buf`. -/
def readLoop : Nat → Scanner → List String
  | 0, _ => []
  | fuel + 1, s =>
    if (Scan s).1 = true then String.mk (Scan s).2.token :: readLoop fuel (Scan s).2
    else []

/-- The lines `LoadModel` hands to its workers: with `skipFirst` one call
`scanner.Scan()` is made first and its result ignored. -/
def queueOf (r : List Char) (skipFirst : Bool) : List String :=
  let scanner := NewScanner r
  let scanner := if skipFirst then (Scan scanner).2 else scanner
  readLoop (r.length + 1) scanner

/-! ## Loader (`LoadModel`) -/

/-- The inner loop of a worker: `vec[i], err = strconv.ParseFloat(line[i], 64)`
for the fields from index `i` on; a parse failure ends the load. -/
def fillVec {K : Type} (parseFloat : String → Except String K) :
    Nat → List String → List K → Except String (List K)
  | _, [], vec => .ok vec
  | i, s :: rest, vec =>
    match parseFloat s with
    | .error e => .error e
    | .ok x => fillVec parseFloat (i + 1) rest (vec.set i x)

/-- One line handled by a worker: nothing to store for a record without fields,
otherwise the identifier `line[0]` and `vec := make([]float64, len(line))` filled
from index 1. A failing parse (a panic in the source) is an error. -/
def parseLine {K : Type} [Zero K] (csvRead : String → Except String (List String))
    (parseFloat : String → Except String K) (b : String) :
    Except String (Option (String × List K)) :=
  match csvRead b with
  | .error e => .error e
  | .ok line =>
    match line with
    | [] => .ok none
    | cui :: fields =>
      match fillVec parseFloat 1 fields (List.replicate line.length 0) with
      | .error e => .error e
      | .ok vec => .ok (some (cui, vec))

/-- The workers draining the queue, in the order in which they take the mutex:
each line is parsed and its vector written to the shared map. -/
def runWorkers {K : Type} [Zero K] (csvRead : String → Except String (List String))
    (parseFloat : String → Except String K) :
    List String → Embeddings K → Except String (Embeddings K)
  | [], vector => .ok vector
  | b :: queue, vector =>
    match parseLine csvRead parseFloat b with
    | .error e => .error e
    | .ok none => runWorkers csvRead parseFloat queue vector
    | .ok (some (cui, vec)) => runWorkers csvRead parseFloat queue (vector.set cui vec)

/-- Source comment: `LoadModel a cui2vec pre-trained model into memory.` Here `r`
holds the bytes of the reader, `csvRead` and `parseFloat` stand for
`csv.NewReader(...).Read()` and `strconv.ParseFloat(_, 64)`, and `sched` is the
order in which the workers get to write the lines they were handed (a
permutation of the queue). -/
def LoadModel {K : Type} [Zero K] (csvRead : String → Except String (List String))
    (parseFloat : String → Except String K) (sched : List String → List String)
    (r : List Char) (skipFirst : Bool) : Except String (Embeddings K) :=
  runWorkers csvRead parseFloat (sched (queueOf r skipFirst)) []

/-! ## SimilarityEngine (`Similar`) -/

/-- The body of one comparison goroutine: the target itself, a failed `cosine`
and an empty identifier append nothing. -/
def compareEntry {K : Type} (cosine : List K → List K → Except String K)
    (vec : List K) (cui : String) (cuis : List (Concept K)) (e : String × List K) :
    List (Concept K) :=
  if e.1 ≠ cui then
    match cosine vec e.2 with
    | .error _ => cuis
    | .ok sim => if e.1.length = 0 then cuis else cuis ++ [{ CUI := e.1, Value := sim }]
  else cuis

/-- The slice `cuis` once every goroutine has finished; the order of `v` is the
order in which they appended. -/
def collect {K : Type} (cosine : List K → List K → Except String K)
    (v : Embeddings K) (cui : String) : List (Concept K) :=
  v.foldl (compareEntry cosine (v.get cui) cui) []

/-- The inner loop of insertion sort: `x` moves left past every neighbour `y`
with `less x y`. The sorted prefix is held reversed, nearest neighbour first. -/
def sinkLeft {α : Type} (less : α → α → Bool) (x : α) : List α → List α
  | [] => [x]
  | y :: ys => if less x y then y :: sinkLeft less x ys else x :: y :: ys

/-- The library function `sort.Slice`, as the insertion sort it runs on a slice
of at most twelve elements. On longer slices the library switches to an unstable
quicksort variant, whose result is again a permutation ordered by `less` and can
differ from this one only in the order of elements neither of which is `less`
than the other. -/
def sortSlice {α : Type} (less : α → α → Bool) (data : List α) : List α :=
  (data.foldl (fun pre x => sinkLeft less x pre) []).reverse

/-- Source comment: `Similar computes cuis that a similar to an input CUI. The
distance function used is cosine similarity. The CUIs are then run through softmax
and sorted.` The error result is always nil and is left out. -/
def Similar {K : Type} (A : Arith K)
    (cosine : List K → List K → Except String K)
    (v : Embeddings K) (cui : String) : List (Concept K) :=
  sortSlice (fun a b => A.gt a.Value b.Value) (softmax A (collect cosine v cui))

/-! ## Sample instances of the library parameters -/

/-- Split a line at its commas. -/
def splitFields : List Char → List Char → List String
  | cur, [] => [String.mk cur.reverse]
  | cur, c :: cs =>
    if c = ',' then String.mk cur.reverse :: splitFields [] cs else splitFields (c :: cur) cs

/-- What `csv.NewReader(...).Read()` returns on a single line that holds no quote
and no carriage return: `io.EOF` for the empty line, else the comma-separated
fields. Other lines are outside this sample. -/
def sampleCsvRead (b : String) : Except String (List String) :=
  if b.data = [] then .error "EOF"
  else if '"' ∈ b.data ∨ '\r' ∈ b.data then .error "outside the sample"
  else .ok (splitFields [] b.data)

/-- What `strconv.ParseFloat(_, 64)` returns on an unsigned decimal integer of at
most fifteen digits (exactly representable). Other fields are outside this
sample. -/
def sampleParseFloat (s : String) : Except String ℚ :=
  if s.data ≠ [] ∧ s.data.all Char.isDigit = true ∧ s.data.length ≤ 15 then
    .ok (digitsValue s.data : ℚ)
  else .error "outside the sample"

/-- What one comparison goroutine contributes for the entry `e`, if anything. -/
def entryConcept {K : Type} (cosine : List K → List K → Except String K)
    (vec : List K) (cui : String) (e : String × List K) : Option (Concept K) :=
  if e.1 ≠ cui then
    match cosine vec e.2 with
    | .error _ => none
    | .ok sim => if e.1.length = 0 then none else some { CUI := e.1, Value := sim }
  else none

/-! ## Inputs of the closed statements and the spec's identifier formats -/

/-- A store holding `A ↦ [1, 0]`, `B ↦ [0, 1]`, `C ↦ [0, 1]`, enumerated `A, B, C`. -/
def storeABC (K : Type) [Field K] : Embeddings K :=
  [("A", [1, 0]), ("B", [0, 1]), ("C", [0, 1])]

/-- The same store enumerated `A, C, B`. -/
def storeACB (K : Type) [Field K] : Embeddings K :=
  [("A", [1, 0]), ("C", [0, 1]), ("B", [0, 1])]

/-- A store with an entry under the empty identifier, as the lines `,1` and `A,1`
load it. -/
def storeEmptyKey (K : Type) [Field K] : Embeddings K :=
  [("A", [0, 1]), ("", [0, 1])]

/-- The spec's well-formed identifier of the encoder: the letter `C` followed by
exactly seven decimal digits. -/
def wellFormedCUI (x : String) : Bool :=
  match x.data with
  | 'C' :: ds => ds.length == 7 && ds.all Char.isDigit
  | _ => false

/-- The spec's pattern for the decoder, on the whole string: a single letter
followed by one or more decimal digits and nothing else. -/
def prefixAndDigits (s : String) : Bool :=
  match s.data with
  | c :: ds => c.isAlpha && !ds.isEmpty && ds.all Char.isDigit
  | [] => false

/-! ## Lemmas: sorting -/

theorem sinkLeft_perm {α : Type} (less : α → α → Bool) (x : α) (l : List α) :
    (sinkLeft less x l).Perm (x :: l) := by
  induction l with
  | nil => simp [sinkLeft]
  | cons y ys ih =>
    simp only [sinkLeft]
    split
    · exact (List.Perm.cons y ih).trans (List.Perm.swap x y ys)
    · exact List.Perm.refl _

theorem sinkLeft_sorted {α K : Type} [LinearOrder K] (key : α → K) (x : α) (l : List α)
    (h : l.Pairwise (fun a b => key a ≤ key b)) :
    (sinkLeft (fun a b => decide (key a > key b)) x l).Pairwise (fun a b => key a ≤ key b) := by
  induction l with
  | nil => simp [sinkLeft]
  | cons y ys ih =>
    rw [List.pairwise_cons] at h
    simp only [sinkLeft]
    split
    · rename_i hlt
      have hlt : key y < key x := by simpa using hlt
      rw [List.pairwise_cons]
      refine ⟨?_, ih h.2⟩
      intro z hz
      rcases List.mem_cons.1 ((sinkLeft_perm _ x ys).mem_iff.1 hz) with rfl | hz
      · exact le_of_lt hlt
      · exact h.1 z hz
    · rename_i hge
      have hge : key x ≤ key y := by simpa using hge
      rw [List.pairwise_cons]
      refine ⟨?_, List.pairwise_cons.2 h⟩
      intro z hz
      rcases List.mem_cons.1 hz with rfl | hz
      · exact hge
      · exact le_trans hge (h.1 z hz)

theorem foldl_sinkLeft_perm {α : Type} (less : α → α → Bool) (data pre : List α) :
    (data.foldl (fun pre x => sinkLeft less x pre) pre).Perm (pre ++ data) := by
  induction data generalizing pre with
  | nil => simp
  | cons x xs ih =>
    simp only [List.foldl_cons]
    refine (ih _).trans ?_
    refine ((sinkLeft_perm less x pre).append_right xs).trans ?_
    simpa using (@List.perm_middle _ x pre xs).symm

theorem foldl_sinkLeft_sorted {α K : Type} [LinearOrder K] (key : α → K) (data pre : List α)
    (h : pre.Pairwise (fun a b => key a ≤ key b)) :
    (data.foldl (fun pre x => sinkLeft (fun a b => decide (key a > key b)) x pre) pre).Pairwise
      (fun a b => key a ≤ key b) := by
  induction data generalizing pre with
  | nil => simpa using h
  | cons x xs ih =>
    simp only [List.foldl_cons]
    exact ih _ (sinkLeft_sorted key x pre h)

theorem sortSlice_perm {α : Type} (less : α → α → Bool) (data : List α) :
    (sortSlice less data).Perm data := by
  unfold sortSlice
  refine (List.reverse_perm _).trans ?_
  simpa using foldl_sinkLeft_perm less data []

theorem sortSlice_sorted {α K : Type} [LinearOrder K] (key : α → K) (data : List α) :
    (sortSlice (fun a b => decide (key a > key b)) data).Pairwise
      (fun a b => key a ≥ key b) := by
  unfold sortSlice
  rw [List.pairwise_reverse]
  exact foldl_sinkLeft_sorted key data [] List.Pairwise.nil

/-! ## Lemmas: the normalizer -/

theorem Softmax_eq_map {K : Type} (A : Arith K) (z : List (Concept K)) :
    Softmax A z = z.map (fun c =>
      { CUI := c.CUI,
        Value := A.div (A.exp c.Value) (Sum A (z.map (fun c => A.exp c.Value))) }) := by
  unfold Softmax
  simp only [List.zipWith_map_right]
  exact List.zipWith_same _ _

theorem Softmax_map_CUI {K : Type} (A : Arith K) (z : List (Concept K)) :
    (Softmax A z).map Concept.CUI = z.map Concept.CUI := by
  rw [Softmax_eq_map, List.map_map]
  rfl

theorem Sum_exact {K : Type} [LinearOrderedField K] (exp : K → K) (s : List K) :
    Sum (Arith.exact exp) s = s.sum := by
  unfold Sum Arith.exact Arith.ordered
  simp only
  rw [List.sum_eq_foldl]

theorem Softmax_exact_values_sum {K : Type} [LinearOrderedField K] (exp : K → K)
    (z : List (Concept K)) (hsum : (z.map (fun c => exp c.Value)).sum ≠ 0) :
    Sum (Arith.exact exp) ((Softmax (Arith.exact exp) z).map Concept.Value) = 1 := by
  rw [Sum_exact, Softmax_eq_map, List.map_map, Sum_exact]
  have h : (List.map (Concept.Value ∘ fun c : Concept K =>
        { CUI := c.CUI,
          Value := (Arith.exact exp).div ((Arith.exact exp).exp c.Value)
            (z.map (fun c => (Arith.exact exp).exp c.Value)).sum }) z)
      = (z.map (fun c => exp c.Value)).map
          (fun e => e / (z.map (fun c => exp c.Value)).sum) := by
    rw [List.map_map]; rfl
  rw [h]
  simp only [div_eq_mul_inv]
  rw [List.sum_map_mul_right]
  simpa using mul_inv_cancel₀ hsum

/-- In exact arithmetic over the reals, with the real exponential, the values of
`Softmax(z)` sum to 1 for every non-empty `z`. -/
theorem Softmax_exact_sum_one (z : List (Concept ℝ)) (hz : z ≠ []) :
    Sum (Arith.exact Real.exp) ((Softmax (Arith.exact Real.exp) z).map Concept.Value) = 1 := by
  refine Softmax_exact_values_sum Real.exp z ?_
  apply ne_of_gt
  cases z with
  | nil => exact absurd rfl hz
  | cons c cs =>
    rw [List.map_cons, List.sum_cons]
    have h : 0 ≤ (cs.map (fun c => Real.exp c.Value)).sum :=
      List.sum_nonneg (fun x hx => by
        obtain ⟨c, _, rfl⟩ := List.mem_map.1 hx
        exact (Real.exp_pos _).le)
    have := Real.exp_pos c.Value
    linarith

/-! ## Lemmas: the comparison loop -/

theorem foldl_compareEntry {K : Type} (cosine : List K → List K → Except String K)
    (vec : List K) (cui : String) (v : List (String × List K)) (cuis : List (Concept K)) :
    v.foldl (compareEntry cosine vec cui) cuis
      = cuis ++ v.filterMap (entryConcept cosine vec cui) := by
  induction v generalizing cuis with
  | nil => simp
  | cons e es ih =>
    rw [List.foldl_cons, ih]
    unfold compareEntry entryConcept
    by_cases h1 : e.1 = cui
    · simp [h1]
    · cases h2 : cosine vec e.2 with
      | error err => simp [h1, h2]
      | ok sim =>
        by_cases h3 : e.1.length = 0
        · simp [h1, h2, h3]
        · simp [h1, h2, h3]

theorem collect_eq_filterMap {K : Type} (cosine : List K → List K → Except String K)
    (v : Embeddings K) (cui : String) :
    collect cosine v cui = v.filterMap (entryConcept cosine (Embeddings.get v cui) cui) := by
  unfold collect
  rw [foldl_compareEntry]
  rfl

theorem entryConcept_CUI {K : Type} (cosine : List K → List K → Except String K)
    (vec : List K) (cui : String) (e : String × List K) (c : Concept K)
    (h : entryConcept cosine vec cui e = some c) :
    c.CUI = e.1 ∧ e.1 ≠ cui ∧ e.1.length ≠ 0 ∧ cosine vec e.2 = .ok c.Value := by
  unfold entryConcept at h
  by_cases h1 : e.1 = cui
  · simp [h1] at h
  · cases h2 : cosine vec e.2 with
    | error err => simp [h1, h2] at h
    | ok sim =>
      by_cases h3 : e.1.length = 0
      · simp [h1, h2, h3] at h
      · simp [h1, h2, h3] at h
        subst h
        exact ⟨rfl, h1, h3, rfl⟩

/-! ## Lemmas: the store -/

theorem lookup_mem {K : Type} (c : String) (f : List K) (v : List (String × List K))
    (h : List.lookup c v = some f) : (c, f) ∈ v := by
  induction v with
  | nil => simp at h
  | cons e es ih =>
    obtain ⟨k, x⟩ := e
    by_cases hk : c = k
    · subst hk
      simp [List.lookup] at h
      simp [h]
    · have hb : (c == k) = false := by simpa using hk
      simp only [List.lookup, hb] at h
      exact List.mem_cons_of_mem _ (ih h)

theorem lookup_of_mem {K : Type} (c : String) (f : List K) (v : List (String × List K))
    (hnd : (v.map Prod.fst).Nodup) (h : (c, f) ∈ v) : List.lookup c v = some f := by
  induction v with
  | nil => simp at h
  | cons e es ih =>
    obtain ⟨k, x⟩ := e
    rw [List.map_cons, List.nodup_cons] at hnd
    rcases List.mem_cons.1 h with heq | hmem
    · injection heq with h1 h2
      subst h1; subst h2
      simp [List.lookup]
    · have hk : c ≠ k := by
        rintro rfl
        exact hnd.1 (List.mem_map.2 ⟨(c, f), hmem, rfl⟩)
      have hb : (c == k) = false := by simpa using hk
      simp only [List.lookup, hb]
      exact ih hnd.2 hmem

theorem lookup_none {K : Type} (c : String) (v : List (String × List K))
    (h : c ∉ v.map Prod.fst) : List.lookup c v = none := by
  induction v with
  | nil => rfl
  | cons e es ih =>
    obtain ⟨k, x⟩ := e
    simp only [List.map_cons, List.mem_cons, not_or] at h
    have hb : (c == k) = false := by simpa using h.1
    simp only [List.lookup, hb]
    exact ih h.2

theorem lookup_perm {K : Type} (c : String) {v₁ v₂ : List (String × List K)}
    (hp : v₁.Perm v₂) (hnd : (v₁.map Prod.fst).Nodup) :
    List.lookup c v₁ = List.lookup c v₂ := by
  have hnd₂ : (v₂.map Prod.fst).Nodup := (hp.map Prod.fst).nodup_iff.1 hnd
  cases h : List.lookup c v₁ with
  | none =>
    have hc : c ∉ v₁.map Prod.fst := by
      intro hin
      obtain ⟨e, he, rfl⟩ := List.mem_map.1 hin
      rw [lookup_of_mem e.1 e.2 v₁ hnd he] at h
      exact Option.noConfusion h
    exact (lookup_none c v₂ (fun hin => hc ((hp.map Prod.fst).mem_iff.2 hin))).symm
  | some f =>
    exact (lookup_of_mem c f v₂ hnd₂ (hp.mem_iff.1 (lookup_mem c f v₁ h))).symm

theorem get_perm {K : Type} (c : String) {v₁ v₂ : Embeddings K}
    (hp : v₁.Perm v₂) (hnd : (Embeddings.keys v₁).Nodup) :
    Embeddings.get v₁ c = Embeddings.get v₂ c := by
  unfold Embeddings.get
  rw [lookup_perm c hp hnd]

theorem get_of_mem {K : Type} (v : Embeddings K) (hnd : (Embeddings.keys v).Nodup)
    (c : String) (f : List K) (h : (c, f) ∈ v) : Embeddings.get v c = f := by
  unfold Embeddings.get
  rw [lookup_of_mem c f v hnd h]
  rfl

/-! ## Lemmas: `Similar` -/

theorem Similar_perm_softmax {K : Type} (A : Arith K)
    (cosine : List K → List K → Except String K) (v : Embeddings K) (cui : String) :
    (Similar A cosine v cui).Perm (softmax A (collect cosine v cui)) :=
  sortSlice_perm _ _

theorem Similar_map_CUI_perm {K : Type} (A : Arith K)
    (cosine : List K → List K → Except String K) (v : Embeddings K) (cui : String) :
    ((Similar A cosine v cui).map Concept.CUI).Perm
      ((v.filterMap (entryConcept cosine (Embeddings.get v cui) cui)).map Concept.CUI) := by
  refine ((Similar_perm_softmax A cosine v cui).map Concept.CUI).trans ?_
  unfold softmax
  rw [Softmax_map_CUI, collect_eq_filterMap]

theorem collect_perm {K : Type} (cosine : List K → List K → Except String K)
    {v₁ v₂ : Embeddings K} (cui : String)
    (hp : v₁.Perm v₂) (hnd : (Embeddings.keys v₁).Nodup) :
    (collect cosine v₁ cui).Perm (collect cosine v₂ cui) := by
  rw [collect_eq_filterMap, collect_eq_filterMap, get_perm cui hp hnd]
  exact hp.filterMap _

/-! ## The claims about `Similar` -/

/-- C4: whatever the store and the identifier asked about (in the store or not),
whatever `cosine` returns and whatever the arithmetic, no entry of
`v.Similar(cui)` carries `cui`. -/
theorem Similar_excludes_target {K : Type} (A : Arith K)
    (cosine : List K → List K → Except String K) (v : Embeddings K) (cui : String) :
    cui ∉ (Similar A cosine v cui).map Concept.CUI := by
  intro h
  have h := (Similar_map_CUI_perm A cosine v cui).mem_iff.1 h
  obtain ⟨c, hc, hcui⟩ := List.mem_map.1 h
  obtain ⟨e, _, he⟩ := List.mem_filterMap.1 hc
  obtain ⟨h1, h2, _, _⟩ := entryConcept_CUI cosine _ cui e c he
  exact h2 (h1.symm.trans hcui)

/-- C5: the sequence `v.Similar(cui)` is in non-increasing order of `Value` (every
earlier entry has a value at least that of every later one), and its entries are
the softmax-normalised collected scores. This holds for linearly ordered values
with any `exp`, sum and quotient, in particular in exact arithmetic. -/
theorem Similar_sorted_descending {K : Type} [LinearOrder K]
    (exp : K → K) (zero : K) (add div : K → K → K)
    (cosine : List K → List K → Except String K) (v : Embeddings K) (cui : String) :
    (Similar (Arith.ordered exp zero add div) cosine v cui).Pairwise
        (fun a b => a.Value ≥ b.Value) ∧
      (Similar (Arith.ordered exp zero add div) cosine v cui).Perm
        (Softmax (Arith.ordered exp zero add div) (collect cosine v cui)) :=
  ⟨sortSlice_sorted Concept.Value _, Similar_perm_softmax _ cosine v cui⟩

/-! ## Determinism of `Similar` -/

theorem Similar_storeABC :
    Similar (Arith.exact Real.exp) (cosine Real.sqrt) (storeABC ℝ) "A"
      = [{ CUI := "B", Value := 1 / 2 }, { CUI := "C", Value := 1 / 2 }] := by
  have hB : "B".length = 1 := rfl
  have hC : "C".length = 1 := rfl
  simp [Similar, sortSlice, sinkLeft, softmax, Softmax, Sum, Arith.exact, Arith.ordered,
    collect, compareEntry, cosine, magnitude, dot, Embeddings.get, List.lookup, storeABC,
    hB, hC]
  norm_num

theorem Similar_storeACB :
    Similar (Arith.exact Real.exp) (cosine Real.sqrt) (storeACB ℝ) "A"
      = [{ CUI := "C", Value := 1 / 2 }, { CUI := "B", Value := 1 / 2 }] := by
  have hB : "B".length = 1 := rfl
  have hC : "C".length = 1 := rfl
  simp [Similar, sortSlice, sinkLeft, softmax, Softmax, Sum, Arith.exact, Arith.ordered,
    collect, compareEntry, cosine, magnitude, dot, Embeddings.get, List.lookup, storeACB,
    hB, hC]
  norm_num

theorem storeABC_perm (K : Type) [Field K] : (storeABC K).Perm (storeACB K) :=
  List.Perm.cons _ (List.Perm.swap _ _ _)

theorem storeABC_keys_nodup (K : Type) [Field K] : (Embeddings.keys (storeABC K)).Nodup := by
  simp [Embeddings.keys, storeABC]

/-- C10, as stated, fails: the store `A ↦ [1,0]`, `B ↦ [0,1]`, `C ↦ [0,1]` queried
for `A` gives `B` and `C` the same normalised value, and the run that appends `B`
first returns `B, C` while the run that appends `C` first returns `C, B`. -/
theorem Similar_depends_on_enumeration :
    (storeABC ℝ).Perm (storeACB ℝ) ∧ (Embeddings.keys (storeABC ℝ)).Nodup ∧
      Similar (Arith.exact Real.exp) (cosine Real.sqrt) (storeABC ℝ) "A"
        ≠ Similar (Arith.exact Real.exp) (cosine Real.sqrt) (storeACB ℝ) "A" := by
  refine ⟨storeABC_perm ℝ, storeABC_keys_nodup ℝ, ?_⟩
  rw [Similar_storeABC, Similar_storeACB]
  intro h
  have h := congrArg (fun l => l.map Concept.CUI) h
  simp at h

/-- C10, amended: two runs of `v.Similar(cui)` on the same store, whatever the
order in which its entries are enumerated and appended and whatever the
arithmetic, collect the same identifiers with the same raw scores and return
the same identifiers, each as often; each run returns the softmax of what it
collected, taken in its own order of appending. -/
theorem Similar_same_identifiers {K : Type} (A : Arith K)
    (cosine : List K → List K → Except String K)
    (v₁ v₂ : Embeddings K) (cui : String)
    (hp : v₁.Perm v₂) (hnd : (Embeddings.keys v₁).Nodup) :
    (collect cosine v₁ cui).Perm (collect cosine v₂ cui) ∧
      ((Similar A cosine v₁ cui).map Concept.CUI).Perm
        ((Similar A cosine v₂ cui).map Concept.CUI) ∧
      (Similar A cosine v₁ cui).Perm (Softmax A (collect cosine v₁ cui)) ∧
      (Similar A cosine v₂ cui).Perm (Softmax A (collect cosine v₂ cui)) := by
  have hc := collect_perm cosine cui hp hnd
  refine ⟨hc, ?_, Similar_perm_softmax A cosine v₁ cui, Similar_perm_softmax A cosine v₂ cui⟩
  refine ((Similar_perm_softmax A cosine v₁ cui).map Concept.CUI).trans ?_
  refine List.Perm.trans ?_ ((Similar_perm_softmax A cosine v₂ cui).map Concept.CUI).symm
  unfold softmax
  rw [Softmax_map_CUI, Softmax_map_CUI]
  exact hc.map _

/-- C10, amended, at the two enumerations of the store `A, B, C`. -/
theorem Similar_same_identifiers_witness :
    (storeABC ℝ).Perm (storeACB ℝ) ∧ (Embeddings.keys (storeABC ℝ)).Nodup ∧
      ((Similar (Arith.exact Real.exp) (cosine Real.sqrt) (storeABC ℝ) "A").map
          Concept.CUI).Perm
        ((Similar (Arith.exact Real.exp) (cosine Real.sqrt) (storeACB ℝ) "A").map
          Concept.CUI) :=
  ⟨storeABC_perm ℝ, storeABC_keys_nodup ℝ,
    (Similar_same_identifiers (Arith.exact Real.exp) (cosine Real.sqrt) (storeABC ℝ)
      (storeACB ℝ) "A" (storeABC_perm ℝ) (storeABC_keys_nodup ℝ)).2.1⟩

/-! ## Which identifiers `Similar` returns -/

theorem cosine_ok_iff {K : Type} [Field K] [DecidableEq K] (sqrt : K → K) (a b : List K) :
    (∃ x, cosine sqrt a b = .ok x) ↔
      a.length = b.length ∧ magnitude sqrt a ≠ 0 ∧ magnitude sqrt b ≠ 0 := by
  unfold cosine
  by_cases h1 : a.length = b.length
  · by_cases h2 : magnitude sqrt a = 0 ∨ magnitude sqrt b = 0
    · simp only [h1, ne_eq, not_true_eq_false, if_false, h2, if_true, true_and]
      constructor
      · rintro ⟨x, hx⟩
        exact Except.noConfusion hx
      · intro h
        rcases h2 with h2 | h2
        · exact absurd h2 h.1
        · exact absurd h2 h.2
    · simp only [h1, ne_eq, not_true_eq_false, if_false, h2, true_and]
      rw [not_or] at h2
      exact ⟨fun _ => h2, fun _ => ⟨_, rfl⟩⟩
  · simp only [ne_eq, h1, not_false_eq_true, if_true, false_and, iff_false]
    rintro ⟨x, hx⟩
    exact Except.noConfusion hx

theorem string_length_eq_zero (c : String) : c.length = 0 ↔ c = "" := by
  cases c with
  | mk data =>
    simp [String.length, String.ext_iff]

theorem filterMap_CUI_sublist {K : Type} (cosine : List K → List K → Except String K)
    (vec : List K) (cui : String) (v : List (String × List K)) :
    ((v.filterMap (entryConcept cosine vec cui)).map Concept.CUI).Sublist (v.map Prod.fst) := by
  induction v with
  | nil => simp
  | cons e es ih =>
    cases h : entryConcept cosine vec cui e with
    | none =>
      rw [List.filterMap_cons_none h]
      exact List.Sublist.cons _ ih
    | some c =>
      rw [List.filterMap_cons_some h, List.map_cons, List.map_cons,
        (entryConcept_CUI cosine vec cui e c h).1]
      exact List.Sublist.cons₂ _ ih

/-- C6, as stated, fails: in the store `A ↦ [0, 1]`, `"" ↦ [0, 1]` the empty
identifier differs from the target `A`, has a vector of the target's
dimensionality, and neither magnitude is zero, yet `Similar("A")` does not return
it. -/
theorem Similar_drops_empty_identifier :
    (Embeddings.keys (storeEmptyKey ℝ)).Nodup ∧
      "" ∈ Embeddings.keys (storeEmptyKey ℝ) ∧ "" ≠ "A" ∧
      (Embeddings.get (storeEmptyKey ℝ) "").length
        = (Embeddings.get (storeEmptyKey ℝ) "A").length ∧
      magnitude Real.sqrt (Embeddings.get (storeEmptyKey ℝ) "A") ≠ 0 ∧
      magnitude Real.sqrt (Embeddings.get (storeEmptyKey ℝ) "") ≠ 0 ∧
      "" ∉ (Similar (Arith.exact Real.exp) (cosine Real.sqrt) (storeEmptyKey ℝ) "A").map
        Concept.CUI := by
  have hE : "".length = 0 := rfl
  refine ⟨?_, ?_, ?_, ?_, ?_, ?_, ?_⟩
  · simp [Embeddings.keys, storeEmptyKey]
  · simp [Embeddings.keys, storeEmptyKey]
  · decide
  · simp [Embeddings.get, List.lookup, storeEmptyKey]
  · simp [Embeddings.get, List.lookup, storeEmptyKey, magnitude, dot]
  · simp [Embeddings.get, List.lookup, storeEmptyKey, magnitude, dot]
  · simp [Similar, sortSlice, sinkLeft, softmax, Softmax, Sum, Arith.exact, Arith.ordered,
      collect, compareEntry, cosine, magnitude, dot, Embeddings.get, List.lookup,
      storeEmptyKey, hE]

/-- C6, amended: the identifiers in `v.Similar(cui)` are exactly the non-empty
identifiers `c` of the store with `c ≠ cui` whose vector has the dimensionality
of the target vector and for which neither magnitude is zero, each exactly once;
the empty identifier is never returned. -/
theorem Similar_identifiers {K : Type} [Field K] [DecidableEq K] (A : Arith K)
    (sqrt : K → K) (v : Embeddings K) (cui : String) (hnd : (Embeddings.keys v).Nodup) :
    ((Similar A (cosine sqrt) v cui).map Concept.CUI).Nodup ∧
      ∀ c : String, c ∈ (Similar A (cosine sqrt) v cui).map Concept.CUI ↔
        (c ∈ Embeddings.keys v ∧ c ≠ cui ∧ c ≠ "" ∧
          (Embeddings.get v cui).length = (Embeddings.get v c).length ∧
          magnitude sqrt (Embeddings.get v cui) ≠ 0 ∧
          magnitude sqrt (Embeddings.get v c) ≠ 0) := by
  have hperm := Similar_map_CUI_perm A (cosine sqrt) v cui
  refine ⟨hperm.nodup_iff.2 (hnd.sublist (filterMap_CUI_sublist _ _ _ v)), fun c => ?_⟩
  rw [hperm.mem_iff]
  constructor
  · intro h
    obtain ⟨con, hcon, rfl⟩ := List.mem_map.1 h
    obtain ⟨e, he, hec⟩ := List.mem_filterMap.1 hcon
    obtain ⟨h1, h2, h3, h4⟩ := entryConcept_CUI _ _ cui e con hec
    have hget : Embeddings.get v e.1 = e.2 := get_of_mem v hnd e.1 e.2 he
    have hcos := (cosine_ok_iff sqrt (Embeddings.get v cui) e.2).1 ⟨_, h4⟩
    rw [h1, hget]
    refine ⟨List.mem_map.2 ⟨e, he, rfl⟩, h2, ?_, hcos⟩
    exact fun h0 => h3 ((string_length_eq_zero e.1).2 h0)
  · rintro ⟨hk, h2, h3, hcos⟩
    obtain ⟨e, he, rfl⟩ := List.mem_map.1 hk
    have hget : Embeddings.get v e.1 = e.2 := get_of_mem v hnd e.1 e.2 he
    rw [hget] at hcos
    obtain ⟨sim, hsim⟩ := (cosine_ok_iff sqrt (Embeddings.get v cui) e.2).2 hcos
    have h3 : ¬ e.1.length = 0 := fun h0 => h3 ((string_length_eq_zero e.1).1 h0)
    refine List.mem_map.2 ⟨{ CUI := e.1, Value := sim }, List.mem_filterMap.2 ⟨e, he, ?_⟩, rfl⟩
    unfold entryConcept
    simp [h2, hsim, h3]

/-- C6, amended, at the store `A, B, C` queried for `A`. -/
theorem Similar_identifiers_witness :
    (Embeddings.keys (storeABC ℝ)).Nodup ∧
      ((Similar (Arith.exact Real.exp) (cosine Real.sqrt) (storeABC ℝ) "A").map
        Concept.CUI).Nodup :=
  ⟨storeABC_keys_nodup ℝ,
    (Similar_identifiers (Arith.exact Real.exp) Real.sqrt (storeABC ℝ) "A"
      (storeABC_keys_nodup ℝ)).1⟩

/-! ## `Softmax` in `float64` -/

/-- C9 fails in `float64` at the one-entry sequence `[{A, -1000}]`: `math.Exp`
underflows to 0, which is finite, the sum is 0, and `0 / 0` is NaN, so the only
value returned is NaN and the values do not sum to 1 (their sum is NaN). -/
theorem Softmax_underflow (round core : ℚ → F64) :
    Softmax (Arith.float64 round core) [{ CUI := "A", Value := F64.fin (-1000) }]
        = [{ CUI := "A", Value := F64.nan }] ∧
      Sum (Arith.float64 round core)
        ((Softmax (Arith.float64 round core)
          [{ CUI := "A", Value := F64.fin (-1000) }]).map Concept.Value) = F64.nan := by
  have h : ((-1000 : ℚ) < -746) := by norm_num
  simp [Softmax, Sum, Arith.float64, F64.exp, F64.add, F64.div, h]

/-! ## The line scanner -/

theorem Scan_token_irrelevant (buf : List Char) (err : Bool) (t t' : List Char) :
    (Scan { buf := buf, err := err, token := t }).1
        = (Scan { buf := buf, err := err, token := t' }).1 ∧
      (Scan { buf := buf, err := err, token := t }).2.buf
        = (Scan { buf := buf, err := err, token := t' }).2.buf ∧
      (Scan { buf := buf, err := err, token := t }).2.err
        = (Scan { buf := buf, err := err, token := t' }).2.err ∧
      ((Scan { buf := buf, err := err, token := t }).1 = true →
        (Scan { buf := buf, err := err, token := t }).2.token
          = (Scan { buf := buf, err := err, token := t' }).2.token) := by
  unfold Scan
  by_cases h1 : buf = []
  · simp [h1]
  · by_cases h2 : err = false ∧
        MaxScanTokenSize ≤ (buf.takeWhile (fun c => c != '\n')).length
    · simp [h1, h2]
    · simp [h1, h2]

theorem Scan_decreases (s : Scanner) (h : (Scan s).1 = true) :
    (Scan s).2.buf.length < s.buf.length := by
  unfold Scan at h ⊢
  by_cases h1 : s.buf = []
  · simp [h1] at h
  · by_cases h2 : s.err = false ∧
        MaxScanTokenSize ≤ (s.buf.takeWhile (fun c => c != '\n')).length
    · simp [h1, h2] at h
    · simp only [h1, h2, if_false, List.length_drop]
      have : 0 < s.buf.length := List.length_pos.2 h1
      omega

/-- The reader loop does not need more calls than `buf` has bytes, plus one. -/
theorem readLoop_fuel (f : Nat) :
    ∀ (f' : Nat) (s : Scanner), s.buf.length < f → s.buf.length < f' →
      readLoop f s = readLoop f' s := by
  induction f with
  | zero => intro f' s h; omega
  | succ f ih =>
    intro f' s h h'
    cases f' with
    | zero => omega
    | succ f' =>
      simp only [readLoop]
      by_cases hs : (Scan s).1 = true
      · have hd := Scan_decreases s hs
        rw [if_pos hs, if_pos hs, ih f' (Scan s).2 (by omega) (by omega)]
      · rw [if_neg hs, if_neg hs]

theorem readLoop_token_irrelevant (f : Nat) :
    ∀ (buf : List Char) (err : Bool) (t t' : List Char),
      readLoop f { buf := buf, err := err, token := t }
        = readLoop f { buf := buf, err := err, token := t' } := by
  cases f with
  | zero => intro _ _ _ _; rfl
  | succ f =>
    intro buf err t t'
    obtain ⟨h1, h2, h3, h4⟩ := Scan_token_irrelevant buf err t t'
    simp only [readLoop]
    by_cases hs : (Scan { buf := buf, err := err, token := t }).1 = true
    · have hs' : (Scan { buf := buf, err := err, token := t' }).1 = true := by
        rw [← h1]; exact hs
      rw [if_pos hs, if_pos hs', h4 hs]
      have e : (Scan { buf := buf, err := err, token := t }).2
          = (Scan { buf := buf, err := err, token := t' }).2 := by
        cases hx : (Scan { buf := buf, err := err, token := t }).2 with
        | mk b1 e1 k1 =>
          cases hy : (Scan { buf := buf, err := err, token := t' }).2 with
          | mk b2 e2 k2 =>
            rw [hx, hy] at h2 h3
            have h4' := h4 hs
            rw [hx, hy] at h4'
            simp only at h2 h3 h4'
            rw [h2, h3, h4']
      rw [e]
    · have hs' : ¬ (Scan { buf := buf, err := err, token := t' }).1 = true := by
        rw [← h1]; exact hs
      rw [if_neg hs, if_neg hs']

/-- With a first line shorter than the buffer, the skipped call takes that line
and its newline, and the reader loop then sees exactly the rest of the input. -/
theorem queueOf_skipFirst (r : List Char)
    (hfirst : (r.takeWhile (fun c => c != '\n')).length < MaxScanTokenSize) :
    queueOf r true
      = queueOf (r.drop ((r.takeWhile (fun c => c != '\n')).length + 1)) false := by
  unfold queueOf NewScanner
  simp only [if_true, Bool.false_eq_true, if_false]
  by_cases hr : r = []
  · subst hr
    rfl
  · have hscan : (Scan { buf := r, err := false, token := [] }).2
        = { buf := r.drop ((r.takeWhile (fun c => c != '\n')).length + 1), err := false,
            token := dropCR (r.takeWhile (fun c => c != '\n')) } := by
      unfold Scan
      simp only [hr, if_false]
      rw [if_neg (by omega)]
    rw [hscan, readLoop_token_irrelevant _ _ _ _ []]
    have hlen : 0 < r.length := List.length_pos.2 hr
    exact readLoop_fuel _ _ _ (by simp only [List.length_drop]; omega)
      (by simp only [List.length_drop]; omega)

theorem takeWhile_replicate_line (n : Nat) (c : Char) (hc : c ≠ '\n') (rest : List Char) :
    (List.replicate n c ++ '\n' :: rest).takeWhile (fun c => c != '\n')
      = List.replicate n c := by
  rw [List.takeWhile_append_of_pos]
  · simp
  · intro a ha
    rw [(List.mem_replicate.1 ha).2]
    simpa using hc

/-- With a first line of `MaxScanTokenSize` bytes or more, the skipped call fails
without taking anything, the next call hands the line's first `MaxScanTokenSize`
bytes to the workers, and the input after them is never read. -/
theorem queueOf_long_first_line (n : Nat) (c : Char) (hc : c ≠ '\n') (hc' : c ≠ '\r')
    (hn : MaxScanTokenSize ≤ n) (rest : List Char) :
    queueOf (List.replicate n c ++ '\n' :: rest) true
      = [String.mk (List.replicate MaxScanTokenSize c)] := by
  have hpos : 0 < MaxScanTokenSize := by decide
  have hne : List.replicate n c ++ '\n' :: rest ≠ [] := by simp
  have hline := takeWhile_replicate_line n c hc rest
  have hskip : (Scan (NewScanner (List.replicate n c ++ '\n' :: rest))).2
      = { buf := List.replicate MaxScanTokenSize c, err := true, token := [] } := by
    have htake : (List.replicate n c ++ '\n' :: rest).take MaxScanTokenSize
        = List.replicate MaxScanTokenSize c := by
      rw [List.take_append_of_le_length (by simpa using hn), List.take_replicate,
        Nat.min_eq_left hn]
    unfold Scan NewScanner
    simp only [hne, if_false, hline, List.length_replicate, true_and, hn, if_true, htake]
  have hchunk : List.replicate MaxScanTokenSize c ≠ [] := by
    intro h
    have := congrArg List.length h
    simp only [List.length_replicate, List.length_nil] at this
    omega
  have hline' : (List.replicate MaxScanTokenSize c).takeWhile (fun c => c != '\n')
      = List.replicate MaxScanTokenSize c := by
    rw [List.takeWhile_eq_self_iff]
    intro a ha
    rw [(List.mem_replicate.1 ha).2]
    simpa using hc
  have hlast : (List.replicate MaxScanTokenSize c).getLast? = some c := by
    rw [List.getLast?_replicate, if_neg (by omega)]
  have hcr : dropCR (List.replicate MaxScanTokenSize c) = List.replicate MaxScanTokenSize c := by
    unfold dropCR
    rw [hlast, if_neg]
    intro h
    exact hc' (Option.some.inj h)
  have hnext : Scan { buf := List.replicate MaxScanTokenSize c, err := true, token := [] }
      = (true, { buf := [], err := true, token := List.replicate MaxScanTokenSize c }) := by
    unfold Scan
    simp only [hchunk, if_false, hline', List.length_replicate, hcr, Bool.true_eq_false,
      false_and]
    rw [List.drop_eq_nil_of_le (by simp)]
  have hend : ∀ (f : Nat) (t : List Char),
      readLoop f { buf := [], err := true, token := t } = [] := by
    intro f t
    cases f with
    | zero => rfl
    | succ f => simp [readLoop, Scan]
  unfold queueOf
  simp only [if_true, hskip, List.length_append, List.length_cons, readLoop, hnext, hend]

/-- A line of `MaxScanTokenSize` bytes or more after a short first line ends the
reading: the first line is the only one handed to the workers, and what follows
is dropped without an error. -/
theorem queueOf_long_line (l₀ : List Char) (n : Nat) (c : Char) (hc : c ≠ '\n')
    (h₀ : '\n' ∉ l₀) (hl₀ : l₀.length < MaxScanTokenSize) (hn : MaxScanTokenSize ≤ n)
    (rest : List Char) :
    queueOf (l₀ ++ '\n' :: (List.replicate n c ++ rest)) false
      = [String.mk (dropCR l₀)] := by
  have hne : l₀ ++ '\n' :: (List.replicate n c ++ rest) ≠ [] := by simp
  have hline : (l₀ ++ '\n' :: (List.replicate n c ++ rest)).takeWhile (fun c => c != '\n')
      = l₀ := by
    rw [List.takeWhile_append_of_pos]
    · simp
    · intro a ha
      have : a ≠ '\n' := fun e => h₀ (e ▸ ha)
      simpa using this
  have hfirst : Scan (NewScanner (l₀ ++ '\n' :: (List.replicate n c ++ rest)))
      = (true, { buf := List.replicate n c ++ rest, err := false, token := dropCR l₀ }) := by
    unfold Scan NewScanner
    simp only [hne, if_false, hline]
    rw [if_neg (by omega)]
    simp
  have hne' : List.replicate n c ++ rest ≠ [] := by
    intro h
    have := congrArg List.length h
    have hpos : 0 < MaxScanTokenSize := by decide
    simp only [List.length_append, List.length_replicate, List.length_nil] at this
    omega
  have hlong : MaxScanTokenSize
      ≤ ((List.replicate n c ++ rest).takeWhile (fun c => c != '\n')).length := by
    rw [List.takeWhile_append_of_pos]
    · simp only [List.length_append, List.length_replicate]
      omega
    · intro a ha
      rw [(List.mem_replicate.1 ha).2]
      simpa using hc
  have hsecond : ∀ t : List Char,
      (Scan { buf := List.replicate n c ++ rest, err := false, token := t }).1 = false := by
    intro t
    unfold Scan
    simp only [hne', if_false]
    rw [if_pos ⟨trivial, hlong⟩]
  unfold queueOf
  simp only [Bool.false_eq_true, if_false, List.length_append, List.length_cons, readLoop,
    hfirst, if_true, hsecond]

/-! ## The workers -/

theorem fillVec_ok {K : Type} (parseFloat : String → Except String K) (fields : List String) :
    ∀ (i : Nat) (pre zs vec : List K), pre.length = i → zs.length = fields.length →
      fillVec parseFloat i fields (pre ++ zs) = .ok vec →
      ∃ xs, List.Forall₂ (fun s x => parseFloat s = .ok x) fields xs ∧ vec = pre ++ xs := by
  induction fields with
  | nil =>
    intro i pre zs vec _ hz h
    have hz : zs = [] := List.length_eq_zero.1 hz
    subst hz
    simp only [fillVec, Except.ok.injEq] at h
    exact ⟨[], List.Forall₂.nil, h.symm⟩
  | cons s rest ih =>
    intro i pre zs vec hi hz h
    cases zs with
    | nil => simp at hz
    | cons z zs =>
      simp only [fillVec] at h
      cases hp : parseFloat s with
      | error e => simp [hp] at h
      | ok x =>
        simp only [hp] at h
        have hset : (pre ++ z :: zs).set i x = (pre ++ [x]) ++ zs := by
          subst hi
          simp
        rw [hset] at h
        obtain ⟨xs, hxs, hvec⟩ :=
          ih (i + 1) (pre ++ [x]) zs vec (by simp [hi]) (by simpa using hz) h
        exact ⟨x :: xs, List.Forall₂.cons hp hxs, by simp [hvec]⟩

theorem parseLine_some {K : Type} [Zero K] (csvRead : String → Except String (List String))
    (parseFloat : String → Except String K) (b cui : String) (vec : List K)
    (h : parseLine csvRead parseFloat b = .ok (some (cui, vec))) :
    ∃ fields xs, csvRead b = .ok (cui :: fields) ∧
      List.Forall₂ (fun s x => parseFloat s = .ok x) fields xs ∧ vec = 0 :: xs := by
  unfold parseLine at h
  cases hc : csvRead b with
  | error e => simp [hc] at h
  | ok line =>
    cases line with
    | nil => simp [hc] at h
    | cons c fields =>
      simp only [hc, List.length_cons] at h
      cases hf : fillVec parseFloat 1 fields (List.replicate (fields.length + 1) 0) with
      | error e => simp [hf] at h
      | ok vec' =>
        simp only [hf, Except.ok.injEq, Option.some.injEq, Prod.mk.injEq] at h
        obtain ⟨rfl, rfl⟩ := h
        have hrep : List.replicate (fields.length + 1) (0 : K)
            = [0] ++ List.replicate fields.length 0 := by
          simp [List.replicate_succ]
        rw [hrep] at hf
        obtain ⟨xs, hxs, hvec⟩ :=
          fillVec_ok parseFloat fields 1 [0] _ vec' rfl (by simp) hf
        exact ⟨fields, xs, rfl, hxs, by simpa using hvec⟩

theorem set_keys_nodup {K : Type} (v : Embeddings K) (cui : String) (vec : List K)
    (h : (Embeddings.keys v).Nodup) : (Embeddings.keys (Embeddings.set v cui vec)).Nodup := by
  unfold Embeddings.keys Embeddings.set at *
  rw [List.map_cons, List.nodup_cons]
  constructor
  · intro hin
    obtain ⟨e, he, hk⟩ := List.mem_map.1 hin
    have := (List.mem_filter.1 he).2
    simp [hk] at this
  · exact h.sublist ((List.filter_sublist _).map _)

theorem mem_set {K : Type} (v : Embeddings K) (cui : String) (vec : List K)
    (e : String × List K) (h : e ∈ Embeddings.set v cui vec) : e = (cui, vec) ∨ e ∈ v := by
  unfold Embeddings.set at h
  rcases List.mem_cons.1 h with h | h
  · exact Or.inl h
  · exact Or.inr (List.mem_filter.1 h).1

theorem mem_keys_set {K : Type} (v : Embeddings K) (cui : String) (vec : List K)
    (c : String) (h : c = cui ∨ c ∈ Embeddings.keys v) :
    c ∈ Embeddings.keys (Embeddings.set v cui vec) := by
  unfold Embeddings.keys Embeddings.set at *
  by_cases hc : c = cui
  · simp [hc]
  · rcases h with h | h
    · exact absurd h hc
    · obtain ⟨e, he, rfl⟩ := List.mem_map.1 h
      refine List.mem_cons_of_mem _ (List.mem_map.2 ⟨e, List.mem_filter.2 ⟨he, ?_⟩, rfl⟩)
      simpa using hc

theorem runWorkers_parses {K : Type} [Zero K] (csvRead : String → Except String (List String))
    (parseFloat : String → Except String K) (queue : List String) :
    ∀ (vector v : Embeddings K), runWorkers csvRead parseFloat queue vector = .ok v →
      ∀ b ∈ queue, ∃ o, parseLine csvRead parseFloat b = .ok o := by
  induction queue with
  | nil => intro _ _ _ b hb; simp at hb
  | cons a q ih =>
    intro vector v h b hb
    simp only [runWorkers] at h
    cases hp : parseLine csvRead parseFloat a with
    | error e => simp [hp] at h
    | ok o =>
      rcases List.mem_cons.1 hb with rfl | hb
      · exact ⟨o, hp⟩
      · cases o with
        | none => simp only [hp] at h; exact ih _ _ h b hb
        | some e => obtain ⟨c, vec⟩ := e; simp only [hp] at h; exact ih _ _ h b hb

theorem runWorkers_origin {K : Type} [Zero K] (csvRead : String → Except String (List String))
    (parseFloat : String → Except String K) (queue : List String) :
    ∀ (vector v : Embeddings K), runWorkers csvRead parseFloat queue vector = .ok v →
      ∀ e ∈ v, e ∈ vector ∨ ∃ b ∈ queue, parseLine csvRead parseFloat b = .ok (some e) := by
  induction queue with
  | nil =>
    intro vector v h e he
    simp only [runWorkers, Except.ok.injEq] at h
    subst h
    exact Or.inl he
  | cons a q ih =>
    intro vector v h e he
    simp only [runWorkers] at h
    cases hp : parseLine csvRead parseFloat a with
    | error err => simp [hp] at h
    | ok o =>
      cases o with
      | none =>
        simp only [hp] at h
        rcases ih _ _ h e he with h1 | ⟨b, hb, hb'⟩
        · exact Or.inl h1
        · exact Or.inr ⟨b, List.mem_cons_of_mem _ hb, hb'⟩
      | some e' =>
        obtain ⟨c, vec⟩ := e'
        simp only [hp] at h
        rcases ih _ _ h e he with h1 | ⟨b, hb, hb'⟩
        · rcases mem_set _ _ _ _ h1 with h2 | h2
          · exact Or.inr ⟨a, List.mem_cons_self _ _, by rw [hp, h2]⟩
          · exact Or.inl h2
        · exact Or.inr ⟨b, List.mem_cons_of_mem _ hb, hb'⟩

theorem runWorkers_keys_nodup {K : Type} [Zero K]
    (csvRead : String → Except String (List String))
    (parseFloat : String → Except String K) (queue : List String) :
    ∀ (vector v : Embeddings K), runWorkers csvRead parseFloat queue vector = .ok v →
      (Embeddings.keys vector).Nodup → (Embeddings.keys v).Nodup := by
  induction queue with
  | nil =>
    intro vector v h hnd
    simp only [runWorkers, Except.ok.injEq] at h
    subst h
    exact hnd
  | cons a q ih =>
    intro vector v h hnd
    simp only [runWorkers] at h
    cases hp : parseLine csvRead parseFloat a with
    | error err => simp [hp] at h
    | ok o =>
      cases o with
      | none => simp only [hp] at h; exact ih _ _ h hnd
      | some e =>
        obtain ⟨c, vec⟩ := e
        simp only [hp] at h
        exact ih _ _ h (set_keys_nodup _ _ _ hnd)

theorem runWorkers_keeps_keys {K : Type} [Zero K]
    (csvRead : String → Except String (List String))
    (parseFloat : String → Except String K) (queue : List String) :
    ∀ (vector v : Embeddings K), runWorkers csvRead parseFloat queue vector = .ok v →
      ∀ c : String, (c ∈ Embeddings.keys vector ∨
          ∃ b ∈ queue, ∃ vec, parseLine csvRead parseFloat b = .ok (some (c, vec))) →
        c ∈ Embeddings.keys v := by
  induction queue with
  | nil =>
    intro vector v h c hc
    simp only [runWorkers, Except.ok.injEq] at h
    subst h
    rcases hc with hc | ⟨b, hb, _⟩
    · exact hc
    · simp at hb
  | cons a q ih =>
    intro vector v h c hc
    simp only [runWorkers] at h
    cases hp : parseLine csvRead parseFloat a with
    | error err => simp [hp] at h
    | ok o =>
      cases o with
      | none =>
        simp only [hp] at h
        refine ih _ _ h c ?_
        rcases hc with hc | ⟨b, hb, vec, hbv⟩
        · exact Or.inl hc
        · rcases List.mem_cons.1 hb with rfl | hb
          · rw [hp] at hbv; simp at hbv
          · exact Or.inr ⟨b, hb, vec, hbv⟩
      | some e =>
        obtain ⟨c', vec'⟩ := e
        simp only [hp] at h
        refine ih _ _ h c ?_
        rcases hc with hc | ⟨b, hb, vec, hbv⟩
        · exact Or.inl (mem_keys_set _ _ _ _ (Or.inr hc))
        · rcases List.mem_cons.1 hb with rfl | hb
          · rw [hp] at hbv
            simp only [Except.ok.injEq, Option.some.injEq, Prod.mk.injEq] at hbv
            exact Or.inl (mem_keys_set _ _ _ _ (Or.inl hbv.1.symm))
          · exact Or.inr ⟨b, hb, vec, hbv⟩

theorem runWorkers_ok_of_parses {K : Type} [Zero K]
    (csvRead : String → Except String (List String))
    (parseFloat : String → Except String K) (queue : List String) :
    ∀ vector : Embeddings K, (∀ b ∈ queue, ∃ o, parseLine csvRead parseFloat b = .ok o) →
      ∃ v, runWorkers csvRead parseFloat queue vector = .ok v := by
  induction queue with
  | nil => intro vector _; exact ⟨vector, rfl⟩
  | cons a q ih =>
    intro vector h
    obtain ⟨o, ho⟩ := h a (List.mem_cons_self _ _)
    have hq : ∀ b ∈ q, ∃ o, parseLine csvRead parseFloat b = .ok o :=
      fun b hb => h b (List.mem_cons_of_mem _ hb)
    simp only [runWorkers, ho]
    cases o with
    | none => exact ih vector hq
    | some e =>
      obtain ⟨c, vec⟩ := e
      exact ih _ hq

theorem parseLine_congr {K : Type} [Zero K] (csvRead : String → Except String (List String))
    (parseFloat : String → Except String K) (b b' : String) (h : csvRead b = csvRead b') :
    parseLine csvRead parseFloat b = (parseLine csvRead parseFloat b' : Except String _) := by
  unfold parseLine
  rw [h]

/-- With the lines that carry an identifier agreeing on their fields, every entry
of the store written in one order is an entry of the store written in another. -/
theorem runWorkers_mem_of_mem {K : Type} [Zero K]
    (csvRead : String → Except String (List String))
    (parseFloat : String → Except String K) (q₁ q₂ : List String) (hq : q₁.Perm q₂)
    (huniq : ∀ b ∈ q₁, ∀ b' ∈ q₁, ∀ id f f',
      csvRead b = .ok (id :: f) → csvRead b' = .ok (id :: f') → f = f')
    (v₁ v₂ : Embeddings K) (h₁ : runWorkers csvRead parseFloat q₁ [] = .ok v₁)
    (h₂ : runWorkers csvRead parseFloat q₂ [] = .ok v₂) (e : String × List K)
    (he : e ∈ v₁) : e ∈ v₂ := by
  obtain ⟨id, vec⟩ := e
  rcases runWorkers_origin csvRead parseFloat _ _ _ h₁ (id, vec) he with h0 | ⟨b, hb, hp⟩
  · simp at h0
  · have hkey : id ∈ Embeddings.keys v₂ :=
      runWorkers_keeps_keys csvRead parseFloat _ _ _ h₂ id
        (Or.inr ⟨b, hq.mem_iff.1 hb, vec, hp⟩)
    obtain ⟨e', he', hid⟩ := List.mem_map.1 hkey
    obtain ⟨id', vec'⟩ := e'
    simp only at hid
    subst hid
    rcases runWorkers_origin csvRead parseFloat _ _ _ h₂ (id', vec') he' with h0 | ⟨b', hb', hp'⟩
    · simp at h0
    · obtain ⟨f, _, hc, _, _⟩ := parseLine_some csvRead parseFloat b id' vec hp
      obtain ⟨f', _, hc', _, _⟩ := parseLine_some csvRead parseFloat b' id' vec' hp'
      have hf := huniq b hb b' (hq.mem_iff.2 hb') id' f f' hc hc'
      have hcsv : csvRead b = csvRead b' := by rw [hc, hc', hf]
      have hpp := parseLine_congr csvRead parseFloat b b' hcsv
      rw [hp, hp'] at hpp
      simp only [Except.ok.injEq, Option.some.injEq, Prod.mk.injEq, true_and] at hpp
      rw [hpp]
      exact he'

/-- With the lines that carry an identifier agreeing on their fields, the store
does not depend on the order in which the workers write. -/
theorem runWorkers_perm {K : Type} [Zero K]
    (csvRead : String → Except String (List String))
    (parseFloat : String → Except String K) (q₁ q₂ : List String) (hq : q₁.Perm q₂)
    (huniq : ∀ b ∈ q₁, ∀ b' ∈ q₁, ∀ id f f',
      csvRead b = .ok (id :: f) → csvRead b' = .ok (id :: f') → f = f')
    (v₁ : Embeddings K) (h₁ : runWorkers csvRead parseFloat q₁ [] = .ok v₁) :
    ∃ v₂, runWorkers csvRead parseFloat q₂ [] = .ok v₂ ∧ v₁.Perm v₂ := by
  obtain ⟨v₂, h₂⟩ := runWorkers_ok_of_parses csvRead parseFloat q₂ ([] : Embeddings K)
    (fun b hb => runWorkers_parses csvRead parseFloat _ _ _ h₁ b (hq.mem_iff.2 hb))
  refine ⟨v₂, h₂, ?_⟩
  have hn₁ : v₁.Nodup := List.Nodup.of_map Prod.fst
    (runWorkers_keys_nodup csvRead parseFloat _ _ _ h₁ (by simp [Embeddings.keys]))
  have hn₂ : v₂.Nodup := List.Nodup.of_map Prod.fst
    (runWorkers_keys_nodup csvRead parseFloat _ _ _ h₂ (by simp [Embeddings.keys]))
  have huniq₂ : ∀ b ∈ q₂, ∀ b' ∈ q₂, ∀ id f f',
      csvRead b = .ok (id :: f) → csvRead b' = .ok (id :: f') → f = f' :=
    fun b hb b' hb' => huniq b (hq.mem_iff.2 hb) b' (hq.mem_iff.2 hb')
  refine (List.perm_ext_iff_of_nodup hn₁ hn₂).2 (fun e => ⟨?_, ?_⟩)
  · exact runWorkers_mem_of_mem csvRead parseFloat q₁ q₂ hq huniq v₁ v₂ h₁ h₂ e
  · exact runWorkers_mem_of_mem csvRead parseFloat q₂ q₁ hq.symm huniq₂ v₂ v₁ h₂ h₁ e

/-! ## The claims about `LoadModel` -/

theorem queueOf_sample : queueOf "C0000001,1,2".data false = ["C0000001,1,2"] := by
  decide

theorem LoadModel_sample :
    LoadModel sampleCsvRead sampleParseFloat (fun q => q) "C0000001,1,2".data false
      = .ok [("C0000001", [0, 1, 2])] := by
  unfold LoadModel
  rw [queueOf_sample]
  simp [runWorkers, parseLine, sampleCsvRead, splitFields, fillVec,
    sampleParseFloat, digitsValue, Embeddings.set]

theorem LoadModel_storeEmptyKey :
    LoadModel sampleCsvRead sampleParseFloat (fun q => q) ",1\nA,1\n".data false
      = .ok (storeEmptyKey ℚ) := by
  have hq : queueOf ",1\nA,1\n".data false = [",1", "A,1"] := by decide
  unfold LoadModel
  rw [hq]
  simp [runWorkers, parseLine, sampleCsvRead, splitFields, fillVec,
    sampleParseFloat, digitsValue, Embeddings.set, storeEmptyKey]

/-- C7, as stated, fails: the record `C0000001,1,2` has two numeric fields, and the
vector stored under `C0000001` has length three, with a zero in the first slot
rather than the value of the first numeric field. -/
theorem LoadModel_keeps_identifier_slot :
    sampleCsvRead "C0000001,1,2" = .ok ["C0000001", "1", "2"] ∧
      sampleParseFloat "1" = .ok 1 ∧ sampleParseFloat "2" = .ok 2 ∧
      LoadModel sampleCsvRead sampleParseFloat (fun q => q) "C0000001,1,2".data false
        = .ok [("C0000001", [0, 1, 2])] ∧
      (Embeddings.get [("C0000001", [(0 : ℚ), 1, 2])] "C0000001").length ≠ 2 ∧
      (Embeddings.get [("C0000001", [(0 : ℚ), 1, 2])] "C0000001").head? ≠ some 1 := by
  refine ⟨by rfl, ?_, ?_, LoadModel_sample, by decide, by decide⟩
  · simp [sampleParseFloat, digitsValue]
  · simp [sampleParseFloat, digitsValue]

/-- C7, amended: when the load succeeds and a line handed to the workers is the
record `id` followed by the numeric fields `fields` (every such line carrying `id`
carrying these same fields), the vector stored under `id` has length `k + 1` for
`k` numeric fields: a zero in slot 0, the identifier's column, and in slot `i`
(1 ≤ i ≤ k) the parsed value of the i-th numeric field, in column order. -/
theorem LoadModel_vector_layout {K : Type} [Zero K]
    (csvRead : String → Except String (List String))
    (parseFloat : String → Except String K) (sched : List String → List String)
    (hs : ∀ q, (sched q).Perm q) (r : List Char) (skipFirst : Bool) (v : Embeddings K)
    (b id : String) (fields : List String)
    (hload : LoadModel csvRead parseFloat sched r skipFirst = .ok v)
    (hb : b ∈ queueOf r skipFirst)
    (hrec : csvRead b = .ok (id :: fields))
    (huniq : ∀ b' ∈ queueOf r skipFirst, ∀ fields',
      csvRead b' = .ok (id :: fields') → fields' = fields) :
    ∃ xs, List.Forall₂ (fun s x => parseFloat s = .ok x) fields xs ∧
      Embeddings.get v id = 0 :: xs ∧ (Embeddings.get v id).length = fields.length + 1 := by
  unfold LoadModel at hload
  have hb' : b ∈ sched (queueOf r skipFirst) := (hs _).mem_iff.2 hb
  obtain ⟨o, ho⟩ := runWorkers_parses csvRead parseFloat _ _ _ hload b hb'
  have hkey : id ∈ Embeddings.keys v := by
    refine runWorkers_keeps_keys csvRead parseFloat _ _ _ hload id (Or.inr ⟨b, hb', ?_⟩)
    cases o with
    | none =>
      unfold parseLine at ho
      simp only [hrec, List.length_cons] at ho
      cases hf : fillVec parseFloat 1 fields (List.replicate (fields.length + 1) 0) with
      | error e => simp [hf] at ho
      | ok vec => simp [hf] at ho
    | some e =>
      obtain ⟨c, vec⟩ := e
      obtain ⟨fields', xs, hc, _, _⟩ := parseLine_some csvRead parseFloat b c vec ho
      rw [hrec] at hc
      simp only [Except.ok.injEq, List.cons.injEq] at hc
      exact ⟨vec, by rw [ho, hc.1]⟩
  obtain ⟨e, he, hid⟩ := List.mem_map.1 hkey
  obtain ⟨c, vec⟩ := e
  simp only at hid
  subst hid
  rcases runWorkers_origin csvRead parseFloat _ _ _ hload (c, vec) he with h0 | ⟨b₁, hb₁, hp₁⟩
  · simp at h0
  · obtain ⟨fields', xs, hc, hxs, hvec⟩ := parseLine_some csvRead parseFloat b₁ c vec hp₁
    have hf := huniq b₁ ((hs _).mem_iff.1 hb₁) fields' hc
    subst hf
    have hnd := runWorkers_keys_nodup csvRead parseFloat _ _ _ hload (by simp [Embeddings.keys])
    have hget := get_of_mem v hnd c vec he
    refine ⟨xs, hxs, by rw [hget, hvec], ?_⟩
    rw [hget, hvec, List.length_cons, hxs.length_eq]

/-- C7, amended, at the one-line input `C0000001,1,2`. -/
theorem LoadModel_vector_layout_witness :
    LoadModel sampleCsvRead sampleParseFloat (fun q => q) "C0000001,1,2".data false
        = .ok [("C0000001", [0, 1, 2])] ∧
      sampleCsvRead "C0000001,1,2" = .ok ["C0000001", "1", "2"] ∧
      ∃ xs, List.Forall₂ (fun s x => sampleParseFloat s = .ok x) ["1", "2"] xs ∧
        Embeddings.get [("C0000001", [(0 : ℚ), 1, 2])] "C0000001" = 0 :: xs ∧
        (Embeddings.get [("C0000001", [(0 : ℚ), 1, 2])] "C0000001").length = 2 + 1 :=
  ⟨LoadModel_sample, rfl,
    LoadModel_vector_layout sampleCsvRead sampleParseFloat (fun q => q)
      (fun q => List.Perm.refl q) "C0000001,1,2".data false [("C0000001", [0, 1, 2])]
      "C0000001,1,2" "C0000001" ["1", "2"] LoadModel_sample
      (by rw [queueOf_sample]; simp) rfl
      (by
        intro b' hb' fields' h
        rw [queueOf_sample, List.mem_singleton] at hb'
        subst hb'
        have h0 : sampleCsvRead "C0000001,1,2" = .ok ["C0000001", "1", "2"] := rfl
        rw [h0] at h
        simp only [Except.ok.injEq, List.cons.injEq, true_and] at h
        exact h.symm)⟩

theorem splitFields_no_comma (l : List Char) (h : ',' ∉ l) :
    ∀ cur : List Char, splitFields cur l = [String.mk (cur.reverse ++ l)] := by
  induction l with
  | nil => intro cur; simp [splitFields]
  | cons c cs ih =>
    intro cur
    simp only [List.mem_cons, not_or] at h
    have hc : c ≠ ',' := fun e => h.1 e.symm
    simp only [splitFields, hc, if_false]
    rw [ih h.2]
    simp

/-- The skip fails on a first line of 70000 bytes: the first `MaxScanTokenSize`
bytes of that line are loaded as an identifier with the vector `[0]`, and the
record `C0000001,1,2` that follows is never read. -/
theorem LoadModel_long_first_line :
    LoadModel sampleCsvRead sampleParseFloat (fun q => q)
        (List.replicate 70000 'x' ++ '\n' :: "C0000001,1,2\n".data) true
      = .ok [(String.mk (List.replicate MaxScanTokenSize 'x'), [0])] := by
  unfold LoadModel
  rw [queueOf_long_first_line 70000 'x' (by decide) (by decide) (by decide)]
  have hmem : ∀ c : Char, c ≠ 'x' → c ∉ List.replicate MaxScanTokenSize 'x' :=
    fun c hc hin => hc (List.mem_replicate.1 hin).2
  have hne : List.replicate MaxScanTokenSize 'x' ≠ [] := by
    intro h
    have := congrArg List.length h
    rw [List.length_replicate] at this
    exact absurd this (by decide)
  have hcsv : sampleCsvRead (String.mk (List.replicate MaxScanTokenSize 'x'))
      = .ok [String.mk (List.replicate MaxScanTokenSize 'x')] := by
    unfold sampleCsvRead
    simp only [hne, if_false, hmem '"' (by decide), hmem '\r' (by decide), or_self]
    rw [splitFields_no_comma _ (hmem ',' (by decide))]
    simp
  simp only [runWorkers, parseLine, hcsv, fillVec, List.length_singleton]
  rfl

/-- A line of 70000 bytes in the middle of the input ends the load without an
error: the record before it is stored, the long line and the record `A,1` after
it are lost. -/
theorem LoadModel_long_line :
    LoadModel sampleCsvRead sampleParseFloat (fun q => q)
        ("B,1".data ++ '\n' :: (List.replicate 70000 'x' ++ ",1\nA,1\n".data)) false
      = .ok [("B", [0, 1])] := by
  unfold LoadModel
  rw [queueOf_long_line "B,1".data 70000 'x' (by decide) (by decide) (by decide) (by decide)]
  have hcr : String.mk (dropCR "B,1".data) = "B,1" := by decide
  rw [hcr]
  simp [runWorkers, parseLine, sampleCsvRead, splitFields, fillVec,
    sampleParseFloat, digitsValue, Embeddings.set]

/-- C8, as stated, fails: with the lines `A,1` and `A,2` after the first line, the
workers writing in the order of the lines leave `A ↦ [0, 2]`, and the workers
writing in the opposite order leave `A ↦ [0, 1]`: the two loads need not return
the same store. -/
theorem LoadModel_repeated_identifier :
    (∀ q : List String, (List.reverse q).Perm q) ∧
      LoadModel sampleCsvRead sampleParseFloat (fun q => q) "cui,V1\nA,1\nA,2\n".data true
        = .ok [("A", [0, 2])] ∧
      LoadModel sampleCsvRead sampleParseFloat List.reverse "A,1\nA,2\n".data false
        = .ok [("A", [0, 1])] ∧
      Embeddings.get [("A", [(0 : ℚ), 2])] "A" ≠ Embeddings.get [("A", [(0 : ℚ), 1])] "A" := by
  have hq₁ : queueOf "cui,V1\nA,1\nA,2\n".data true = ["A,1", "A,2"] := by decide
  have hq₂ : queueOf "A,1\nA,2\n".data false = ["A,1", "A,2"] := by decide
  refine ⟨fun q => List.reverse_perm q, ?_, ?_, by decide⟩
  · unfold LoadModel
    rw [hq₁]
    simp [runWorkers, parseLine, sampleCsvRead, splitFields, fillVec,
      sampleParseFloat, digitsValue, Embeddings.set]
  · unfold LoadModel
    rw [hq₂]
    simp [runWorkers, parseLine, sampleCsvRead, splitFields, fillVec,
      sampleParseFloat, digitsValue, Embeddings.set]

/-- C8, amended: when the first line is shorter than the scanner's buffer of 65536
bytes, `LoadModel(input, true)` hands its workers the lines `LoadModel(L, false)`
does, `L` being the input after the first line and its newline, whatever the
first line holds. When the lines of `L` that carry an identifier agree on their
fields, a successful `LoadModel(input, true)` and `LoadModel(L, false)` return
the same store whatever the orders in which the workers write, and an identifier
that no line of `L` carries is absent from it. On the empty input
`LoadModel(_, true)` returns the empty store. -/
theorem LoadModel_skipFirst {K : Type} [Zero K]
    (csvRead : String → Except String (List String))
    (parseFloat : String → Except String K) (sched₁ sched₂ : List String → List String)
    (hs₁ : ∀ q, (sched₁ q).Perm q) (hs₂ : ∀ q, (sched₂ q).Perm q) (r : List Char)
    (hfirst : (r.takeWhile (fun c => c != '\n')).length < MaxScanTokenSize) :
    queueOf r true
        = queueOf (r.drop ((r.takeWhile (fun c => c != '\n')).length + 1)) false ∧
      (∀ v₁ : Embeddings K, LoadModel csvRead parseFloat sched₁ r true = .ok v₁ →
        (∀ b ∈ queueOf r true, ∀ b' ∈ queueOf r true, ∀ id f f',
          csvRead b = .ok (id :: f) → csvRead b' = .ok (id :: f') → f = f') →
        ∃ v₂, LoadModel csvRead parseFloat sched₂
            (r.drop ((r.takeWhile (fun c => c != '\n')).length + 1)) false = .ok v₂ ∧
          v₁.Perm v₂) ∧
      (∀ (v₁ : Embeddings K) (id : String),
        LoadModel csvRead parseFloat sched₁ r true = .ok v₁ →
        (∀ b ∈ queueOf r true, ∀ line, csvRead b = .ok line → line.head? ≠ some id) →
        id ∉ Embeddings.keys v₁) ∧
      LoadModel csvRead parseFloat sched₁ [] true = .ok ([] : Embeddings K) := by
  have hq := queueOf_skipFirst r hfirst
  refine ⟨hq, ?_, ?_, ?_⟩
  · intro v₁ h₁ huniq
    unfold LoadModel at h₁ ⊢
    rw [← hq]
    have hperm : (sched₁ (queueOf r true)).Perm (sched₂ (queueOf r true)) :=
      (hs₁ _).trans (hs₂ _).symm
    refine runWorkers_perm csvRead parseFloat _ _ hperm ?_ v₁ h₁
    intro b hb b' hb'
    exact huniq b ((hs₁ _).mem_iff.1 hb) b' ((hs₁ _).mem_iff.1 hb')
  · intro v₁ id h₁ hno hkey
    unfold LoadModel at h₁
    obtain ⟨e, he, hid⟩ := List.mem_map.1 hkey
    obtain ⟨c, vec⟩ := e
    simp only at hid
    subst hid
    rcases runWorkers_origin csvRead parseFloat _ _ _ h₁ (c, vec) he with h0 | ⟨b, hb, hp⟩
    · simp at h0
    · obtain ⟨fields, xs, hc, _, _⟩ := parseLine_some csvRead parseFloat b c vec hp
      exact hno b ((hs₁ _).mem_iff.1 hb) _ hc rfl
  · have hq0 : queueOf [] true = [] := rfl
    have h : sched₁ [] = [] := List.perm_nil.1 (hs₁ [])
    unfold LoadModel
    rw [hq0, h]
    rfl

theorem LoadModel_sample_skip :
    LoadModel sampleCsvRead sampleParseFloat (fun q => q) "cui,V1,V2\nC0000001,1,2".data true
      = .ok [("C0000001", [0, 1, 2])] := by
  have hq : queueOf "cui,V1,V2\nC0000001,1,2".data true = ["C0000001,1,2"] := by decide
  unfold LoadModel
  rw [hq]
  simp [runWorkers, parseLine, sampleCsvRead, splitFields, fillVec,
    sampleParseFloat, digitsValue, Embeddings.set]

/-- C8, amended, at a header line followed by the record `C0000001,1,2`, the
workers of the second load writing in the opposite order. -/
theorem LoadModel_skipFirst_witness :
    (∀ q : List String, (List.reverse q).Perm q) ∧
      ("cui,V1,V2\nC0000001,1,2".data.takeWhile (fun c => c != '\n')).length
        < MaxScanTokenSize ∧
      queueOf "cui,V1,V2\nC0000001,1,2".data true = queueOf "C0000001,1,2".data false ∧
      ∃ v₂, LoadModel sampleCsvRead sampleParseFloat List.reverse "C0000001,1,2".data false
          = .ok v₂ ∧
        List.Perm [("C0000001", [(0 : ℚ), 1, 2])] v₂ :=
  ⟨fun q => List.reverse_perm q, by decide,
    (LoadModel_skipFirst (K := ℚ) sampleCsvRead sampleParseFloat (fun q => q) List.reverse
      (fun q => List.Perm.refl q) (fun q => List.reverse_perm q)
      "cui,V1,V2\nC0000001,1,2".data (by decide)).1,
    (LoadModel_skipFirst sampleCsvRead sampleParseFloat (fun q => q) List.reverse
      (fun q => List.Perm.refl q) (fun q => List.reverse_perm q)
      "cui,V1,V2\nC0000001,1,2".data (by decide)).2.1 [("C0000001", [0, 1, 2])]
      LoadModel_sample_skip
      (by
        have hq : queueOf "cui,V1,V2\nC0000001,1,2".data true = ["C0000001,1,2"] := by decide
        intro b hb b' hb' id f f' h h'
        rw [hq, List.mem_singleton] at hb hb'
        subst hb; subst hb'
        rw [h] at h'
        simp only [Except.ok.injEq, List.cons.injEq, true_and] at h'
        exact h')⟩

/-! ## The identifier codec -/

/-- C1 fails at `n = 1000000`, which fits the seven-digit body: `Int2CUI`
returns `C1000000`, and `CUI2Int` rejects it, because the pattern asks for at
least one `0` right after the `C`. -/
theorem CUI2Int_Int2CUI_1000000 :
    (0 : Int) ≤ 1000000 ∧ (1000000 : Int) ≤ 9999999 ∧ Int2CUI 1000000 = "C1000000" ∧
      CUI2Int (Int2CUI 1000000) = .error "C1000000 is not a cui" :=
  ⟨by decide, by decide, rfl, rfl⟩

/-- C2 fails at the well-formed identifier `C1234567`: `CUI2Int` rejects it,
because the pattern asks for at least one `0` right after the `C`. -/
theorem CUI2Int_C1234567 :
    wellFormedCUI "C1234567" = true ∧
      CUI2Int "C1234567" = .error "C1234567 is not a cui" :=
  ⟨rfl, rfl⟩

/-- C3, as stated, fails: `xC0000001y` is an identifier with a character before
and a character after it, not a letter followed by digits as a whole, and
`CUI2Int` returns 1 for it. -/
theorem CUI2Int_accepts_embedded :
    prefixAndDigits "xC0000001y" = false ∧ CUI2Int "xC0000001y" = .ok 1 :=
  ⟨rfl, rfl⟩

theorem takeWhile_head_zero (rest : List Char)
    (h : (rest.takeWhile Char.isDigit).head? = some '0' ∧
      2 ≤ (rest.takeWhile Char.isDigit).length) :
    ∃ d post, d.isDigit = true ∧ rest = '0' :: d :: post := by
  cases rest with
  | nil => simp at h
  | cons a t =>
    by_cases ha : a.isDigit = true
    · rw [List.takeWhile_cons_of_pos ha] at h
      simp only [List.head?_cons, Option.some.injEq, List.length_cons] at h
      obtain ⟨rfl, hlen⟩ := h
      cases t with
      | nil => simp at hlen
      | cons d post =>
        by_cases hd : d.isDigit = true
        · exact ⟨d, post, hd, rfl⟩
        · rw [List.takeWhile_cons_of_neg hd] at hlen
          simp at hlen
    · rw [List.takeWhile_cons_of_neg ha] at h
      simp at h

theorem findAllFrom_nil_of_no_match (l : List Char) :
    ∀ skip : Nat, (∀ pre d post, d.isDigit = true → l ≠ pre ++ 'C' :: '0' :: d :: post) →
      findAllFrom skip l = [] := by
  induction l with
  | nil => intro skip _; cases skip <;> rfl
  | cons c rest ih =>
    intro skip h
    have hrest : ∀ pre d post, d.isDigit = true → rest ≠ pre ++ 'C' :: '0' :: d :: post := by
      intro pre d post hd heq
      exact h (c :: pre) d post hd (by rw [heq]; rfl)
    cases skip with
    | succ k => exact ih k hrest
    | zero =>
      simp only [findAllFrom]
      by_cases hc : c = 'C'
      · have hm : matchAfterC rest = none := by
          unfold matchAfterC
          simp only
          split
          · rename_i hrun
            obtain ⟨d, post, hd, heq⟩ := takeWhile_head_zero rest hrun
            exact absurd (by rw [hc, heq]; rfl) (h [] d post hd)
          · rfl
        simp only [hc, if_true, hm]
        exact ih 0 hrest
      · simp only [hc, if_false]
        exact ih 0 hrest

/-! ## Decimal rendering and parsing -/

theorem toDigitsCore_append (f : Nat) :
    ∀ (n : Nat) (acc : List Char),
      Nat.toDigitsCore 10 f n acc = Nat.toDigitsCore 10 f n [] ++ acc := by
  induction f with
  | zero => intro n acc; simp [Nat.toDigitsCore]
  | succ f ih =>
    intro n acc
    simp only [Nat.toDigitsCore]
    split
    · simp
    · rw [ih (n / 10) (Nat.digitChar (n % 10) :: acc), ih (n / 10) [Nat.digitChar (n % 10)]]
      simp

theorem toDigitsCore_fuel (f : Nat) :
    ∀ (n f' : Nat), n < f → n < f' →
      Nat.toDigitsCore 10 f n [] = Nat.toDigitsCore 10 f' n [] := by
  induction f with
  | zero => intro n f' h; omega
  | succ f ih =>
    intro n f' h h'
    cases f' with
    | zero => omega
    | succ f' =>
      simp only [Nat.toDigitsCore]
      split
      · rfl
      · rename_i hne
        have hlt : n / 10 < n := Nat.div_lt_self (by omega) (by decide)
        rw [toDigitsCore_append f, toDigitsCore_append f',
          ih (n / 10) f' (by omega) (by omega)]

theorem toDigits_lt (n : Nat) (h : n < 10) : Nat.toDigits 10 n = [Nat.digitChar n] := by
  unfold Nat.toDigits
  simp only [Nat.toDigitsCore]
  have h0 : n / 10 = 0 := Nat.div_eq_of_lt h
  simp [h0, Nat.mod_eq_of_lt h]

theorem toDigits_ge (n : Nat) (h : 10 ≤ n) :
    Nat.toDigits 10 n = Nat.toDigits 10 (n / 10) ++ [Nat.digitChar (n % 10)] := by
  unfold Nat.toDigits
  have h0 : n / 10 ≠ 0 := by omega
  have e : Nat.toDigitsCore 10 (n + 1) n []
      = Nat.toDigitsCore 10 n (n / 10) [Nat.digitChar (n % 10)] := by
    simp only [Nat.toDigitsCore, h0, if_false]
  rw [e, toDigitsCore_append, toDigitsCore_fuel n (n / 10) (n / 10 + 1) (by omega) (by omega)]

theorem digitChar_facts (d : Nat) (h : d < 10) :
    (Nat.digitChar d).isDigit = true ∧ (Nat.digitChar d).toNat - 48 = d ∧
      (d ≠ 0 → Nat.digitChar d ≠ '0') := by
  interval_cases d <;> decide

theorem isDigit_facts (c : Char) (h : c.isDigit = true) :
    c.toNat - 48 < 10 ∧ Nat.digitChar (c.toNat - 48) = c ∧ c ≠ '-' ∧ c ≠ '+' ∧
      (c.toNat - 48 = 0 → c = '0') := by
  have hc : c = Char.ofNat c.toNat := (Char.ofNat_toNat c).symm
  have hr : 48 ≤ c.toNat ∧ c.toNat ≤ 57 := by
    simp only [Char.isDigit, Bool.and_eq_true, decide_eq_true_eq] at h
    exact ⟨by simpa [Char.toNat] using h.1, by simpa [Char.toNat] using h.2⟩
  obtain ⟨h1, h2⟩ := hr
  generalize c.toNat = k at hc h1 h2
  subst hc
  interval_cases k <;> decide

theorem digitsValue_append (l : List Char) (c : Char) :
    digitsValue (l ++ [c]) = 10 * digitsValue l + (c.toNat - 48) := by
  simp [digitsValue, List.foldl_append]

theorem toDigits_facts (n : Nat) :
    (∀ c ∈ Nat.toDigits 10 n, c.isDigit = true) ∧ digitsValue (Nat.toDigits 10 n) = n ∧
      Nat.toDigits 10 n ≠ [] ∧ (n ≠ 0 → (Nat.toDigits 10 n).head? ≠ some '0') := by
  induction n using Nat.strong_induction_on with
  | _ n ih =>
    by_cases h : n < 10
    · rw [toDigits_lt n h]
      obtain ⟨h1, h2, h3⟩ := digitChar_facts n h
      refine ⟨?_, ?_, by simp, ?_⟩
      · intro c hc
        rw [List.mem_singleton.1 hc]
        exact h1
      · simpa [digitsValue] using h2
      · intro hn
        simpa using h3 hn
    · have h10 : 10 ≤ n := by omega
      rw [toDigits_ge n h10]
      obtain ⟨i1, i2, i3, i4⟩ := ih (n / 10) (Nat.div_lt_self (by omega) (by decide))
      obtain ⟨h1, h2, _⟩ := digitChar_facts (n % 10) (Nat.mod_lt _ (by decide))
      refine ⟨?_, ?_, by simp, ?_⟩
      · intro c hc
        rcases List.mem_append.1 hc with hc | hc
        · exact i1 c hc
        · rw [List.mem_singleton.1 hc]
          exact h1
      · rw [digitsValue_append, i2, h2]
        omega
      · intro _
        have hne : n / 10 ≠ 0 := by omega
        cases hd : Nat.toDigits 10 (n / 10) with
        | nil => exact absurd hd i3
        | cons a t =>
          have := i4 hne
          rw [hd] at this
          simpa using this

/-! ## What `CUI2Int` accepts -/

theorem Atoi_of_digits (g : List Char) (hne : g ≠ []) (hall : ∀ c ∈ g, c.isDigit = true) :
    Atoi g = if digitsValue g < 2 ^ 63 then .ok (digitsValue g : Int)
      else .error (numError g "value out of range") := by
  cases g with
  | nil => exact absurd rfl hne
  | cons a t =>
    obtain ⟨_, _, hm, hp, _⟩ := isDigit_facts a (hall a (List.mem_cons_self _ _))
    have hds : (match a :: t with
        | '-' :: t => t
        | '+' :: t => t
        | _ => a :: t) = a :: t := by
      split
      · rename_i heq
        exact absurd (List.cons.inj heq).1 hm
      · rename_i heq
        exact absurd (List.cons.inj heq).1 hp
      · rfl
    have hall' : (a :: t).all Char.isDigit = true := List.all_eq_true.2 hall
    unfold Atoi
    simp only [hds, hall', List.head?_cons, Option.some.injEq, hm, decide_False]
    simp

theorem Atoi_digits (g : List Char) (hne : g ≠ []) (hall : ∀ c ∈ g, c.isDigit = true)
    (hlt : digitsValue g < 2 ^ 63) : Atoi g = .ok (digitsValue g : Int) := by
  rw [Atoi_of_digits g hne hall, if_pos hlt]

theorem digitsValue_zero_cons (l : List Char) : digitsValue ('0' :: l) = digitsValue l := by
  unfold digitsValue
  rw [List.foldl_cons]
  rfl

theorem digitsValue_dropWhile_zero (l : List Char) :
    digitsValue (l.dropWhile (fun c => c == '0')) = digitsValue l := by
  induction l with
  | nil => rfl
  | cons c t ih =>
    by_cases hc : c = '0'
    · subst hc
      rw [List.dropWhile_cons_of_pos (by decide), ih, digitsValue_zero_cons]
    · rw [List.dropWhile_cons_of_neg (by simpa using hc)]

theorem takeWhile_append_stop (a b : List Char) (x : Char) (hx : x.isDigit = false) :
    (a ++ x :: b).takeWhile Char.isDigit = a.takeWhile Char.isDigit := by
  induction a with
  | nil => simp [List.takeWhile, hx]
  | cons c t ih =>
    by_cases hc : c.isDigit = true
    · rw [List.cons_append, List.takeWhile_cons_of_pos hc, List.takeWhile_cons_of_pos hc, ih]
    · rw [List.cons_append, List.takeWhile_cons_of_neg hc, List.takeWhile_cons_of_neg hc]

theorem take_length_takeWhile (l : List Char) :
    l.take (l.takeWhile Char.isDigit).length = l.takeWhile Char.isDigit := by
  induction l with
  | nil => rfl
  | cons c t ih =>
    by_cases hc : c.isDigit = true
    · rw [List.takeWhile_cons_of_pos hc, List.length_cons, List.take_succ_cons, ih]
    · rw [List.takeWhile_cons_of_neg hc]
      rfl

theorem findAllFrom_skip (a : List Char) (b : List Char) :
    findAllFrom a.length (a ++ b) = findAllFrom 0 b := by
  induction a with
  | nil => rfl
  | cons c t ih =>
    rw [List.length_cons, List.cons_append]
    cases hb : t ++ b with
    | nil =>
      have ht : t = [] := (List.append_eq_nil.1 hb).1
      have hb' : b = [] := (List.append_eq_nil.1 hb).2
      subst ht; subst hb'
      rfl
    | cons y ys =>
      rw [← hb]
      simp only [findAllFrom]
      exact ih

/-- A stretch without an identifier in front of a `C` is passed over. -/
theorem findAllFrom_before (pre : List Char) (tl : List Char)
    (h : ∀ a d b, d.isDigit = true → pre ≠ a ++ 'C' :: '0' :: d :: b) :
    findAllFrom 0 (pre ++ 'C' :: tl) = findAllFrom 0 ('C' :: tl) := by
  induction pre with
  | nil => rfl
  | cons c p ih =>
    have hp : ∀ a d b, d.isDigit = true → p ≠ a ++ 'C' :: '0' :: d :: b := by
      intro a d b hd heq
      exact h (c :: a) d b hd (by rw [heq]; rfl)
    rw [List.cons_append]
    rw [findAllFrom]
    by_cases hc : c = 'C'
    · have hm : matchAfterC (p ++ 'C' :: tl) = none := by
        unfold matchAfterC
        simp only [takeWhile_append_stop p tl 'C' (by decide)]
        split
        · rename_i hrun
          obtain ⟨d, post, hd, heq⟩ := takeWhile_head_zero p hrun
          exact absurd (by rw [hc, heq]; rfl) (h [] d post hd)
        · rfl
      simp only [hc, if_true, hm]
      exact ih hp
    · simp only [hc, if_false]
      exact ih hp

theorem no_identifier_of_no_CDigit (l : List Char)
    (h : ∀ a d b, d.isDigit = true → l ≠ a ++ 'C' :: d :: b) :
    ∀ a d b, d.isDigit = true → l ≠ a ++ 'C' :: '0' :: d :: b :=
  fun a d b _ heq => h a '0' (d :: b) (by decide) heq

/-- The one match of a string that holds one identifier and no other `C` followed
by a digit. -/
theorem findAllFrom_single (pre run post : List Char)
    (hpre : ∀ a d b, d.isDigit = true → pre ≠ a ++ 'C' :: d :: b)
    (hpost : ∀ a d b, d.isDigit = true → post ≠ a ++ 'C' :: d :: b)
    (hrun : ∀ c ∈ run, c.isDigit = true) (hhead : run.head? = some '0')
    (hlen : 2 ≤ run.length) (hend : ∀ c, post.head? = some c → c.isDigit = false) :
    findAllFrom 0 (pre ++ 'C' :: (run ++ post))
      = [if run.dropWhile (fun c => c == '0') = [] then ['0']
          else run.dropWhile (fun c => c == '0')] := by
  rw [findAllFrom_before pre _ (no_identifier_of_no_CDigit pre hpre)]
  have htw : (run ++ post).takeWhile Char.isDigit = run := by
    rw [List.takeWhile_append_of_pos hrun]
    cases post with
    | nil => simp
    | cons y ys =>
      rw [List.takeWhile_cons_of_neg (by simp [hend y rfl])]
      simp
  have hm : matchAfterC (run ++ post)
      = some (if run.dropWhile (fun c => c == '0') = [] then ['0']
          else run.dropWhile (fun c => c == '0')) := by
    unfold matchAfterC
    simp only [htw]
    rw [if_pos ⟨hhead, hlen⟩]
  simp only [findAllFrom, if_true, hm, htw]
  rw [findAllFrom_skip,
    findAllFrom_nil_of_no_match post 0 (no_identifier_of_no_CDigit post hpost)]

/-- Every `C` followed by a `0` and a digit starts a match: the search has not
skipped over it, since a match covers digits only. -/
theorem findAllFrom_match (a : List Char) :
    ∀ (k : Nat) (d : Char) (c : List Char), d.isDigit = true →
      (∀ x ∈ (a ++ 'C' :: '0' :: d :: c).take k, x.isDigit = true) →
      ∃ front g, findAllFrom k (a ++ 'C' :: '0' :: d :: c)
        = front ++ g :: findAllFrom (('0' :: d :: c).takeWhile Char.isDigit).length
            ('0' :: d :: c) := by
  induction a with
  | nil =>
    intro k d c hd hk
    cases k with
    | succ k =>
      have := hk 'C' (by simp)
      exact absurd this (by decide)
    | zero =>
      have hm : ∃ g, matchAfterC ('0' :: d :: c) = some g := by
        unfold matchAfterC
        simp only
        rw [if_pos]
        · exact ⟨_, rfl⟩
        · rw [List.takeWhile_cons_of_pos (by decide), List.takeWhile_cons_of_pos hd]
          exact ⟨rfl, by simp⟩
      obtain ⟨g, hg⟩ := hm
      refine ⟨[], g, ?_⟩
      simp only [List.nil_append, findAllFrom, if_true, hg]
  | cons x t ih =>
    intro k d c hd hk
    rw [List.cons_append]
    cases k with
    | succ k =>
      rw [findAllFrom]
      refine ih k d c hd (fun y hy => hk y ?_)
      rw [List.cons_append, List.take_succ_cons]
      exact List.mem_cons_of_mem _ hy
    | zero =>
      rw [findAllFrom]
      by_cases hx : x = 'C'
      · simp only [hx, if_true]
        cases hm : matchAfterC (t ++ 'C' :: '0' :: d :: c) with
        | none => exact ih 0 d c hd (by simp)
        | some g' =>
          simp only
          obtain ⟨front, g, hfg⟩ := ih _ d c hd (fun y hy => by
            rw [take_length_takeWhile] at hy
            exact List.mem_takeWhile_imp hy)
          exact ⟨g' :: front, g, by rw [hfg]; rfl⟩
      · simp only [hx, if_false]
        exact ih 0 d c hd (by simp)

theorem CUI2Int_error_of_two (s : String) (front mid rest : List (List Char))
    (g₁ g₂ : List Char)
    (h : FindAllStringSubmatch s = front ++ g₁ :: (mid ++ g₂ :: rest)) :
    CUI2Int s = .error (s ++ " is not a cui") := by
  unfold CUI2Int
  rw [h]
  cases front with
  | nil =>
    cases mid with
    | nil => rfl
    | cons m ms => rfl
  | cons f fs =>
    cases fs with
    | nil => rfl
    | cons f' fs' => rfl

/-- C3, amended: `CUI2Int` looks for identifiers inside the string, an identifier
being a `C` followed by a `0` and at least one more decimal digit, taken with all
the digits that follow. It returns the error `<s> is not a cui` when `s` holds no
`C` followed by a digit, and when `s` holds two identifiers or more. When `s`
holds one identifier and no other `C` followed by a digit, whatever else stands
before or after it, it returns the value of the identifier's digits, or the range
error of `strconv.Atoi` when that value does not fit `int`. Nothing is said of a
string in which some `C` is followed by digits that are not a `0` and one digit
more. -/
theorem CUI2Int_embedded_identifier :
    (∀ s : String, (∀ a d b, d.isDigit = true → s.data ≠ a ++ 'C' :: d :: b) →
        CUI2Int s = .error (s ++ " is not a cui")) ∧
      (∀ (a b c : List Char) (d₁ d₂ : Char), d₁.isDigit = true → d₂.isDigit = true →
        CUI2Int (String.mk (a ++ 'C' :: '0' :: d₁ :: (b ++ 'C' :: '0' :: d₂ :: c)))
          = .error (String.mk (a ++ 'C' :: '0' :: d₁ :: (b ++ 'C' :: '0' :: d₂ :: c))
              ++ " is not a cui")) ∧
      (∀ pre run post : List Char,
        (∀ a d b, d.isDigit = true → pre ≠ a ++ 'C' :: d :: b) →
        (∀ a d b, d.isDigit = true → post ≠ a ++ 'C' :: d :: b) →
        (∀ c ∈ run, c.isDigit = true) → run.head? = some '0' → 2 ≤ run.length →
        (∀ c, post.head? = some c → c.isDigit = false) →
        CUI2Int (String.mk (pre ++ 'C' :: (run ++ post)))
          = if digitsValue run < 2 ^ 63 then .ok (digitsValue run : Int)
            else .error (numError (run.dropWhile (fun c => c == '0'))
              "value out of range")) := by
  refine ⟨?_, ?_, ?_⟩
  · intro s h
    unfold CUI2Int FindAllStringSubmatch
    rw [findAllFrom_nil_of_no_match s.data 0 (no_identifier_of_no_CDigit s.data h)]
  · intro a b c d₁ d₂ h₁ h₂
    obtain ⟨front, g₁, hf⟩ :=
      findAllFrom_match a 0 d₁ (b ++ 'C' :: '0' :: d₂ :: c) h₁ (by simp)
    obtain ⟨mid, g₂, hm⟩ := findAllFrom_match ('0' :: d₁ :: b)
      (('0' :: d₁ :: (b ++ 'C' :: '0' :: d₂ :: c)).takeWhile Char.isDigit).length d₂ c h₂
      (fun y hy => by
        rw [List.cons_append, List.cons_append, take_length_takeWhile] at hy
        exact List.mem_takeWhile_imp hy)
    rw [List.cons_append, List.cons_append] at hm
    have heq : FindAllStringSubmatch
        (String.mk (a ++ 'C' :: '0' :: d₁ :: (b ++ 'C' :: '0' :: d₂ :: c)))
        = front ++ g₁ :: (mid ++ g₂ ::
            findAllFrom (('0' :: d₂ :: c).takeWhile Char.isDigit).length ('0' :: d₂ :: c)) := by
      unfold FindAllStringSubmatch
      rw [hf, hm]
    exact CUI2Int_error_of_two _ front mid _ g₁ g₂ heq
  · intro pre run post hpre hpost hrun hhead hlen hend
    unfold CUI2Int FindAllStringSubmatch
    simp only [findAllFrom_single pre run post hpre hpost hrun hhead hlen hend]
    have hrne : run ≠ [] := by
      intro h
      rw [h] at hlen
      simp at hlen
    have hval := digitsValue_dropWhile_zero run
    by_cases hg : run.dropWhile (fun c => c == '0') = []
    · rw [if_pos hg]
      rw [hg] at hval
      have h0 : digitsValue run = 0 := hval.symm
      rw [h0]
      rfl
    · rw [if_neg hg, Atoi_of_digits _ hg
        (fun c hc => hrun c ((List.dropWhile_sublist _).subset hc)), hval]

/-- C3, amended, at four strings: no identifier, two identifiers, one identifier
between other characters, and one identifier whose digits exceed `int`. -/
theorem CUI2Int_embedded_identifier_witness :
    CUI2Int "D0000001" = .error "D0000001 is not a cui" ∧
      CUI2Int "C0000001C0000002" = .error "C0000001C0000002 is not a cui" ∧
      CUI2Int "xC0000001y" = .ok 1 ∧
      CUI2Int "C099999999999999999999"
        = .error "strconv.Atoi: parsing \"99999999999999999999\": value out of range" := by
  have hx : ∀ (l : List Char), 'C' ∉ l →
      ∀ a d b, d.isDigit = true → l ≠ a ++ 'C' :: d :: b := by
    intro l hl a d b _ heq
    exact hl (by rw [heq]; simp)
  refine ⟨?_, ?_, ?_, ?_⟩
  · exact CUI2Int_embedded_identifier.1 "D0000001" (hx _ (by decide))
  · exact CUI2Int_embedded_identifier.2.1 [] "00001".data "00002".data '0' '0' rfl rfl
  · exact CUI2Int_embedded_identifier.2.2 ['x'] "0000001".data ['y']
      (hx _ (by decide)) (hx _ (by decide)) (by decide) rfl (by decide) (by decide)
  · exact CUI2Int_embedded_identifier.2.2 [] "099999999999999999999".data []
      (hx _ (by decide)) (hx _ (by decide)) (by decide) rfl (by decide) (by decide)

/-! ## Round trips of the codec -/

theorem padZeros_eq (k : Nat) : ∀ l : List Char, padZeros k l = List.replicate k '0' ++ l := by
  induction k with
  | zero => intro l; rfl
  | succ k ih =>
    intro l
    rw [padZeros, ih, List.replicate_succ']
    simp

theorem findAllFrom_short (l : List Char) :
    ∀ skip : Nat, l.length ≤ skip → findAllFrom skip l = [] := by
  induction l with
  | nil => intro skip _; cases skip <;> rfl
  | cons c rest ih =>
    intro skip h
    cases skip with
    | zero => simp at h
    | succ k => exact ih k (by simpa using h)

theorem dropWhile_zero_replicate (k : Nat) (l : List Char) :
    (List.replicate k '0' ++ l).dropWhile (fun c => c == '0')
      = l.dropWhile (fun c => c == '0') := by
  induction k with
  | zero => rfl
  | succ k ih =>
    rw [List.replicate_succ, List.cons_append, List.dropWhile_cons_of_pos (by decide)]
    exact ih

/-- The capture group and the end of the match when everything after the `C` is
digits, the first of them a zero. -/
theorem findAllFrom_whole (rest : List Char) (hall : ∀ c ∈ rest, c.isDigit = true)
    (hhead : rest.head? = some '0') (hlen : 2 ≤ rest.length) :
    findAllFrom 0 ('C' :: rest)
      = [if rest.dropWhile (fun c => c == '0') = [] then ['0']
          else rest.dropWhile (fun c => c == '0')] := by
  have htw : rest.takeWhile Char.isDigit = rest := List.takeWhile_eq_self_iff.2 hall
  have hm : matchAfterC rest
      = some (if rest.dropWhile (fun c => c == '0') = [] then ['0']
          else rest.dropWhile (fun c => c == '0')) := by
    unfold matchAfterC
    simp only [htw]
    rw [if_pos ⟨hhead, hlen⟩]
  simp only [findAllFrom, if_true, hm, htw]
  rw [findAllFrom_short rest rest.length (Nat.le_refl _)]

/-- Decoding undoes encoding for every `n` below one million, the values whose
rendering is padded with at least one zero. -/
theorem CUI2Int_Int2CUI_of_lt (n : Nat) (h : n < 1000000) :
    CUI2Int (Int2CUI (n : Int)) = .ok (n : Int) := by
  obtain ⟨hdig, hval, hne, hhead⟩ := toDigits_facts n
  have hlen : (Nat.toDigits 10 n).length ≤ 6 :=
    Nat.toDigitsCore_length 10 (by decide) (n + 1) n 6 (by simpa using h) (by decide)
  have hItoa : Itoa (n : Int) = Nat.toDigits 10 n := by
    unfold Itoa
    simp
  obtain ⟨k, hk⟩ : ∃ k, 7 - (Nat.toDigits 10 n).length = k + 1 :=
    ⟨6 - (Nat.toDigits 10 n).length, by omega⟩
  have hall : ∀ c ∈ List.replicate (k + 1) '0' ++ Nat.toDigits 10 n, c.isDigit = true := by
    intro c hc
    rcases List.mem_append.1 hc with hc | hc
    · rw [(List.mem_replicate.1 hc).2]; rfl
    · exact hdig c hc
  have hfind := findAllFrom_whole (List.replicate (k + 1) '0' ++ Nat.toDigits 10 n) hall
    (by simp [List.replicate_succ]) (by simp; omega)
  rw [dropWhile_zero_replicate] at hfind
  unfold CUI2Int FindAllStringSubmatch Int2CUI
  simp only [hItoa, hk, padZeros_eq, hfind]
  by_cases h0 : n = 0
  · subst h0
    rfl
  · have hdw : (Nat.toDigits 10 n).dropWhile (fun c => c == '0') = Nat.toDigits 10 n := by
      cases hd : Nat.toDigits 10 n with
      | nil => rfl
      | cons a t =>
        have ha := hhead h0
        rw [hd] at ha
        have ha : a ≠ '0' := by simpa using ha
        rw [List.dropWhile_cons_of_neg (by simpa using ha)]
    rw [hdw, if_neg hne, Atoi_digits _ hne hdig (by rw [hval]; omega), hval]

theorem digitsValue_lt (g : List Char) (hall : ∀ c ∈ g, c.isDigit = true) :
    digitsValue g < 10 ^ g.length := by
  induction g using List.reverseRecOn with
  | nil => simp [digitsValue]
  | append_singleton l a ih =>
    have hl := ih (fun c hc => hall c (List.mem_append_left _ hc))
    obtain ⟨ha, _⟩ := isDigit_facts a (hall a (by simp))
    rw [digitsValue_append, List.length_append, List.length_singleton, pow_succ]
    omega

/-- A digit string without a leading zero is the rendering of its value. -/
theorem toDigits_digitsValue (g : List Char) (hne : g ≠ [])
    (hall : ∀ c ∈ g, c.isDigit = true) (hhead : g.head? ≠ some '0') :
    Nat.toDigits 10 (digitsValue g) = g := by
  induction g using List.reverseRecOn with
  | nil => exact absurd rfl hne
  | append_singleton l a ih =>
    obtain ⟨ha, hda, _, _, _⟩ := isDigit_facts a (hall a (by simp))
    rw [digitsValue_append]
    cases l with
    | nil =>
      have h0 : digitsValue [] = 0 := rfl
      rw [h0, Nat.mul_zero, Nat.zero_add, toDigits_lt _ ha, hda]
      rfl
    | cons b t =>
      have hl := ih (by simp) (fun c hc => hall c (List.mem_append_left _ hc))
        (by simpa using hhead)
      have hpos : digitsValue (b :: t) ≠ 0 := by
        intro h0
        rw [h0] at hl
        have hb : (Nat.toDigits 10 0).head? = some '0' := rfl
        rw [hl] at hb
        exact hhead (by simpa using hb)
      rw [toDigits_ge _ (by omega)]
      have hdiv : (10 * digitsValue (b :: t) + (a.toNat - 48)) / 10 = digitsValue (b :: t) := by
        omega
      have hmod : (10 * digitsValue (b :: t) + (a.toNat - 48)) % 10 = a.toNat - 48 := by
        omega
      rw [hdiv, hmod, hl, hda]

theorem takeWhile_zero_eq_replicate (l : List Char) :
    l.takeWhile (fun c => c == '0')
      = List.replicate (l.takeWhile (fun c => c == '0')).length '0' := by
  refine List.eq_replicate_iff.2 ⟨rfl, fun c hc => ?_⟩
  simpa using List.mem_takeWhile_imp hc

/-- Encoding undoes decoding for every identifier `C0dddddd`: the letter `C`, a
zero and six more decimal digits. -/
theorem Int2CUI_CUI2Int_of_leading_zero (ds : List Char) (hlen : ds.length = 6)
    (hall : ∀ c ∈ ds, c.isDigit = true) :
    ∃ n : Int, CUI2Int (String.mk ('C' :: '0' :: ds)) = .ok n ∧
      Int2CUI n = String.mk ('C' :: '0' :: ds) := by
  have hall' : ∀ c ∈ '0' :: ds, c.isDigit = true := by
    intro c hc
    rcases List.mem_cons.1 hc with rfl | hc
    · rfl
    · exact hall c hc
  have hfind := findAllFrom_whole ('0' :: ds) hall' rfl (by simp [hlen])
  rw [List.dropWhile_cons_of_pos (by decide)] at hfind
  have hsplit := List.takeWhile_append_dropWhile (fun c => c == '0') ds
  have hrep := takeWhile_zero_eq_replicate ds
  have hsum : (ds.takeWhile (fun c => c == '0')).length
      + (ds.dropWhile (fun c => c == '0')).length = 6 := by
    rw [← List.length_append, hsplit, hlen]
  unfold CUI2Int FindAllStringSubmatch
  simp only [hfind]
  by_cases hg : ds.dropWhile (fun c => c == '0') = []
  · rw [if_pos hg]
    refine ⟨0, rfl, ?_⟩
    rw [hg, List.append_nil] at hsplit
    rw [hg, List.length_nil, Nat.add_zero] at hsum
    rw [hsum, hsplit] at hrep
    rw [hrep]
    rfl
  · rw [if_neg hg]
    have hgall : ∀ c ∈ ds.dropWhile (fun c => c == '0'), c.isDigit = true :=
      fun c hc => hall c ((List.dropWhile_sublist _).subset hc)
    have hghead : (ds.dropWhile (fun c => c == '0')).head? ≠ some '0' := by
      intro h
      have := List.head?_dropWhile_not (fun c => c == '0') ds
      rw [h] at this
      simp at this
    have hlt := digitsValue_lt _ hgall
    have hpow : 10 ^ (ds.dropWhile (fun c => c == '0')).length ≤ 10 ^ 6 :=
      Nat.pow_le_pow_right (by decide) (by omega)
    refine ⟨(digitsValue (ds.dropWhile (fun c => c == '0')) : Int),
      Atoi_digits _ hg hgall (by omega), ?_⟩
    unfold Int2CUI Itoa
    simp only [Int.natAbs_ofNat, Int.natCast_nonneg, not_lt.2, if_false,
      toDigits_digitsValue _ hg hgall hghead, padZeros_eq]
    have hk : 7 - (ds.dropWhile (fun c => c == '0')).length
        = (ds.takeWhile (fun c => c == '0')).length + 1 := by omega
    rw [hk, List.replicate_succ, List.cons_append, ← hrep, hsplit]

/-- A `C` followed by digits the first of which is not a zero holds no match. -/
theorem CUI2Int_error_of_no_leading_zero (ds : List Char)
    (hall : ∀ c ∈ ds, c.isDigit = true) (hhead : ds.head? ≠ some '0') :
    CUI2Int (String.mk ('C' :: ds))
      = .error (String.mk ('C' :: ds) ++ " is not a cui") := by
  unfold CUI2Int FindAllStringSubmatch
  rw [findAllFrom_nil_of_no_match ('C' :: ds) 0]
  intro pre d post _ heq
  cases pre with
  | nil =>
    have h := (List.cons.inj heq).2
    rw [h] at hhead
    exact hhead rfl
  | cons p pre =>
    have h := (List.cons.inj heq).2
    have hC : 'C' ∈ ds := by rw [h]; simp
    exact absurd (hall 'C' hC) (by decide)

/-- Decoding rejects the encoding of every `n` from one million on, the values
whose rendering fills the seven digits and is not padded. -/
theorem CUI2Int_Int2CUI_of_ge (n : Nat) (h : 1000000 ≤ n) :
    CUI2Int (Int2CUI (n : Int)) = .error (Int2CUI (n : Int) ++ " is not a cui") := by
  obtain ⟨hdig, hval, hne, hhead⟩ := toDigits_facts n
  have hlt := digitsValue_lt _ hdig
  rw [hval] at hlt
  have hlen : 7 ≤ (Nat.toDigits 10 n).length := by
    by_contra hc
    have hpow : 10 ^ (Nat.toDigits 10 n).length ≤ 10 ^ 6 :=
      Nat.pow_le_pow_right (by decide) (by omega)
    omega
  have hItoa : Itoa (n : Int) = Nat.toDigits 10 n := by
    unfold Itoa
    simp
  have hk : 7 - (Nat.toDigits 10 n).length = 0 := by omega
  have hcui : Int2CUI (n : Int) = String.mk ('C' :: Nat.toDigits 10 n) := by
    unfold Int2CUI
    simp only [hItoa, hk, padZeros]
  rw [hcui]
  exact CUI2Int_error_of_no_leading_zero _ hdig (hhead (by omega))

end Cui2vec
